import Mathlib

/-!
Verification of the `smart_changelog` changelog document model.

The Python module `smart_changelog/updater.py` manipulates a markdown
changelog as a plain string.  We embed the relevant functions over
`List Char`, mirroring the source operations (including the semantics of
the regular expressions used with `re.search`/`re.sub`: leftmost match,
lazy quantifiers realised as smallest end position, `\s*` realised as the
maximal whitespace run because the following pattern characters are
disjoint from whitespace).
-/

namespace SmartChangelog

/-- Characters of a Python string. -/
abbrev Str := List Char

/-- Convert a Lean string literal to the character-list model. -/
def str (s : String) : Str := s.data

/-- The newline character. -/
def nl : Char := '\n'

/-- Python whitespace (`str.strip` / `\s`) over the ASCII range used here. -/
def isSpaceChar (c : Char) : Bool :=
  c = ' ' || c = '\t' || c = '\n' || c = '\r' || c = '\x0b' || c = '\x0c'

/-- Python `s.lstrip()`. -/
def lstrip (s : Str) : Str := s.dropWhile isSpaceChar

/-- Python `s.rstrip()`. -/
def rstrip (s : Str) : Str := (s.reverse.dropWhile isSpaceChar).reverse

/-- Python `s.strip()`. -/
def strip (s : Str) : Str := lstrip (rstrip s)

/-- Python `s.strip("\n")`. -/
def stripNlChars (s : Str) : Str :=
  ((s.dropWhile (· = nl)).reverse.dropWhile (· = nl)).reverse

/-- Python `s.lstrip("\n")`. -/
def lstripNlChars (s : Str) : Str := s.dropWhile (· = nl)

/-- Python substring containment `pat in s`. -/
def containsSub : Str → Str → Bool
  | [], pat => pat.isEmpty
  | c :: rest, pat => pat.isPrefixOf (c :: rest) || containsSub rest pat

/-- Python `s.find(pat)` (`none` models `-1`). -/
def findSub : Str → Str → Option Nat
  | [], pat => if pat.isEmpty then some 0 else none
  | c :: rest, pat =>
    if pat.isPrefixOf (c :: rest) then some 0
    else (findSub rest pat).map (· + 1)

/-- Split at every newline; a string with `n` newlines yields `n + 1` pieces. -/
def splitAll : Str → List Str
  | [] => [[]]
  | c :: rest =>
    if c = nl then [] :: splitAll rest
    else
      match splitAll rest with
      | [] => [[c]]
      | p :: ps => (c :: p) :: ps

/-- Python `s.splitlines()` for strings whose only line break is `\n`. -/
def splitlines (s : Str) : List Str :=
  let ps := splitAll s
  if ps.getLast? = some [] then ps.dropLast else ps

/-- Python `"\n".join(lines)`. -/
def joinNl : List Str → Str
  | [] => []
  | [l] => l
  | l :: ls => l ++ nl :: joinNl ls

/-- Python `s.replace(pat, repl, 1)`. -/
def replaceFirst (s pat repl : Str) : Str :=
  match findSub s pat with
  | none => s
  | some i => s.take i ++ repl ++ s.drop (i + pat.length)

/-! ## Section vocabulary (`SECTION_HEADINGS`, `SECTION_MARKERS`) -/

/-- The category keys, in the dictionary's insertion (render) order. -/
inductive SectionKey
  | feature
  | fix
  | change
deriving DecidableEq

/-- `SECTION_HEADINGS` keys in order. -/
def sectionKeys : List SectionKey := [.feature, .fix, .change]

/-- The key string of a category. -/
def keyName : SectionKey → Str
  | .feature => str "feature"
  | .fix => str "fix"
  | .change => str "change"

/-- The heading with its `### ` marker stripped (`_section_definitions`). -/
def headingBare : SectionKey → Str
  | .feature => str "🧩 New Features"
  | .fix => str "🐛 Bug Fixes"
  | .change => str "⚙️ Changes"

/-- The display heading of a category (`SECTION_HEADINGS[key]`). -/
def sectionHeading (k : SectionKey) : Str := str "### " ++ headingBare k

/-- `SECTION_MARKERS[key]["start"]`. -/
def startMarker (k : SectionKey) : Str := str "<!-- section:" ++ keyName k ++ str " -->"

/-- `SECTION_MARKERS[key]["end"]`. -/
def endMarker (k : SectionKey) : Str := str "<!-- /section:" ++ keyName k ++ str " -->"

/-- A per-category mapping of entry lines (the `sections` dictionary). -/
structure Sections where
  feature : List Str
  fix : List Str
  change : List Str
deriving DecidableEq

/-- Look a category's list up. -/
def Sections.get (s : Sections) : SectionKey → List Str
  | .feature => s.feature
  | .fix => s.fix
  | .change => s.change

/-- Replace a category's list. -/
def Sections.set (s : Sections) : SectionKey → List Str → Sections
  | .feature, l => { s with feature := l }
  | .fix, l => { s with fix := l }
  | .change, l => { s with change := l }

/-- The sections mapping with no entries (rendering with `entries_by_section=None`). -/
def emptySections : Sections := ⟨[], [], []⟩

/-! ## Rendering (`_render_version_block_fallback`, `_normalise_block`) -/

/-- Lines contributed by one section in `_render_version_block_fallback`. -/
def sectionLines (k : SectionKey) (entries : List Str) : List Str :=
  [startMarker k] ++
    (if entries.isEmpty then [] else [sectionHeading k, []] ++ entries ++ [[]]) ++
    [endMarker k, []]

/-- The complete line list built by `_render_version_block_fallback`. -/
def renderLines (version dateStr : Str) (s : Sections) : List Str :=
  [str "## " ++ version, str "_Last updated: " ++ dateStr ++ str "_", []] ++
    sectionLines .feature s.feature ++ sectionLines .fix s.fix ++
    sectionLines .change s.change

/-- `_render_version_block_fallback`. -/
def renderVersionBlockFallback (version dateStr : Str) (s : Sections) : Str :=
  joinNl (renderLines version dateStr s)

/-- `_normalise_block`. -/
def normaliseBlock (b : Str) : Str := stripNlChars b ++ [nl]

/-- Modelled from the spec: `_render_version_block` renders through a jinja
template asset that is not part of the source tree; per the spec it renders the
same normalised block shape as the in-source fallback renderer
`_render_version_block_fallback`, which we therefore use as the serializer. -/
def renderVersionBlock (version dateStr : Str) (s : Sections) : Str :=
  normaliseBlock (renderVersionBlockFallback version dateStr s)

/-! ## Parsing (`_parse_version_block` and helpers) -/

/-- `not line.strip()` in Python. -/
def blankLine (l : Str) : Bool := (strip l).isEmpty

/-- `_strip_non_entry_lines`. -/
def stripNonEntryLines (lines : List Str) : List Str :=
  let t1 := lines.dropWhile blankLine
  let t2 :=
    match t1 with
    | [] => []
    | l0 :: rest => if (str "###").isPrefixOf (lstrip l0) then rest else l0 :: rest
  let t3 := t2.dropWhile blankLine
  let t4 := (t3.reverse.dropWhile blankLine).reverse
  (t4.filter (fun l => !(blankLine l))).map rstrip

/-- `_extract_entries_from_segment`. -/
def extractEntriesFromSegment (segment : Str) : List Str :=
  stripNonEntryLines (splitlines segment)

/-- The literal part of the `_Last updated:` patterns. -/
def lastUpdatedLit : Str := str "_Last updated:"

/-- `\d{4}-\d{2}-\d{2}` anchored at the front: the date and the rest. -/
def parseDateAt : Str → Option (Str × Str)
  | a :: b :: c :: d :: '-' :: e :: f :: '-' :: g :: h :: rest =>
    if a.isDigit && b.isDigit && c.isDigit && d.isDigit &&
        e.isDigit && f.isDigit && g.isDigit && h.isDigit then
      some ([a, b, c, d, '-', e, f, '-', g, h], rest)
    else none
  | _ => none

/-- A match of `_Last updated:\s*(\d{4}-\d{2}-\d{2})_` anchored at the front:
the whitespace run, the date group, and the rest after the underscore. -/
def lastUpdatedMatchAt (s : Str) : Option (Str × Str × Str) :=
  if lastUpdatedLit.isPrefixOf s then
    let r1 := s.drop lastUpdatedLit.length
    match parseDateAt (r1.dropWhile isSpaceChar) with
    | some (d, r3) =>
      match r3 with
      | '_' :: r4 => some (r1.takeWhile isSpaceChar, d, r4)
      | _ => none
    | none => none
  else none

/-- `re.search(r"_Last updated:\s*(\d{4}-\d{2}-\d{2})_", ...)`: date group of
the leftmost match. -/
def searchLastUpdated : Str → Option Str
  | [] => none
  | c :: rest =>
    match lastUpdatedMatchAt (c :: rest) with
    | some (_, d, _) => some d
    | none => searchLastUpdated rest

/-- The `re.sub(..., count=1)` in `_update_last_updated`: rewrite the date
group of the leftmost match; `none` when the pattern does not occur. -/
def subLastUpdated (dateStr : Str) : Str → Option Str
  | [] => none
  | c :: rest =>
    match lastUpdatedMatchAt (c :: rest) with
    | some (ws, _, r4) => some (lastUpdatedLit ++ ws ++ dateStr ++ '_' :: r4)
    | none => (subLastUpdated dateStr rest).map (c :: ·)

/-- Least `j' ≥ j` at which `(?=\n### |\n## |\Z)` holds (lazy group end in
`_extract_entries_from_heading`). -/
def headingSegEnd (block : Str) (j : Nat) : Nat :=
  if _h : block.length ≤ j then block.length
  else if (str "\n### ").isPrefixOf (block.drop j) || (str "\n## ").isPrefixOf (block.drop j)
    then j
  else headingSegEnd block (j + 1)
termination_by block.length - j

/-- `_extract_entries_from_heading`. -/
def extractEntriesFromHeading (block heading : Str) : List Str :=
  match findSub block (heading ++ [nl]) with
  | none => []
  | some i =>
    let s := i + heading.length + 1
    let j := headingSegEnd block s
    stripNonEntryLines (splitlines ((block.drop s).take (j - s)))

/-- Result of `_parse_version_block`. -/
structure ParsedBlock where
  version : Str
  date : Str
  sections : Sections
deriving DecidableEq

/-- `_parse_version_block`. -/
def parseVersionBlock (block : Str) : ParsedBlock :=
  let lines := splitlines (strip block)
  let version :=
    match lines with
    | [] => []
    | l0 :: _ => if (str "## ").isPrefixOf l0 then strip (l0.drop 3) else []
  let date := (searchLastUpdated block).getD []
  let entriesFor := fun (k : SectionKey) =>
    match findSub block (startMarker k), findSub block (endMarker k) with
    | some si, some ei =>
      if si < ei then
        extractEntriesFromSegment
          ((block.drop (si + (startMarker k).length)).take (ei - (si + (startMarker k).length)))
      else extractEntriesFromHeading block (sectionHeading k)
    | _, _ => extractEntriesFromHeading block (sectionHeading k)
  { version := version, date := date,
    sections := ⟨entriesFor .feature, entriesFor .fix, entriesFor .change⟩ }

/-! ## Locating and splicing version blocks -/

/-- `(?=\n## |\Z)` at position `j`. -/
def versionLookahead (content : Str) (j : Nat) : Bool :=
  j = content.length || (str "\n## ").isPrefixOf (content.drop j)

/-- Least `j' ≥ j` at which the lookahead holds (the lazy end of `group(1)`). -/
def findBlockEnd (content : Str) (j : Nat) : Nat :=
  if _h : content.length ≤ j then content.length
  else if versionLookahead content j then j
  else findBlockEnd content (j + 1)
termination_by content.length - j

/-- `_find_version_block`: the span `[start, end)` of `group(1)`. -/
def findVersionBlock (content heading : Str) : Option (Nat × Nat) :=
  match findSub content (heading ++ [nl]) with
  | none => none
  | some i => some (i, findBlockEnd content (i + heading.length + 1))

/-- `content[i:j]`. -/
def blockSlice (content : Str) (i j : Nat) : Str := (content.drop i).take (j - i)

/-- `_replace_version_block`. -/
def replaceVersionBlock (content heading newBlock : Str) : Str × Bool :=
  match findVersionBlock content heading with
  | none => (content, false)
  | some (i, j) =>
    let existing := normaliseBlock (blockSlice content i j)
    let replacement := normaliseBlock newBlock
    if existing = replacement then (content, false)
    else (content.take i ++ replacement ++ content.drop j, true)

/-! ## Upserting entries (`_upsert_entry_for_version`) -/

/-- Outcome of the for/else loop over a section's entry list. -/
inductive UpsertOutcome
  | unchanged
  | changed (entries : List Str)
deriving DecidableEq

/-- The entry-list manipulation inside `_upsert_entry_for_version`: find the
first line containing the marker; equal line ⇒ no change, different line ⇒
replace in place, no line ⇒ insert at the front. -/
def upsertEntryList (entry marker : Str) (l : List Str) : UpsertOutcome :=
  match l.findIdx? (fun line => containsSub line marker) with
  | some i => if strip (l.getD i []) = entry then .unchanged else .changed (l.set i entry)
  | none => .changed (entry :: l)

/-- `next((key for key, heading in SECTION_HEADINGS.items() if heading == category_heading), "change")`. -/
def sectionKeyFor (categoryHeading : Str) : SectionKey :=
  if categoryHeading = sectionHeading .feature then .feature
  else if categoryHeading = sectionHeading .fix then .fix
  else if categoryHeading = sectionHeading .change then .change
  else .change

/-- `_upsert_entry_for_version`. -/
def upsertEntryForVersion (content heading categoryHeading entry ticketId : Str) :
    Str × Bool :=
  match findVersionBlock content heading with
  | none => (content, false)
  | some (i, j) =>
    let block := blockSlice content i j
    let parsed := parseVersionBlock block
    let key := sectionKeyFor categoryHeading
    let marker := '(' :: ticketId
    match upsertEntryList entry marker (parsed.sections.get key) with
    | .unchanged => (content, false)
    | .changed newList =>
      let sections2 := parsed.sections.set key newList
      let versionValue :=
        if parsed.version = [] then strip (replaceFirst heading (str "##") [])
        else parsed.version
      let newBlock := renderVersionBlock versionValue parsed.date sections2
      replaceVersionBlock content heading newBlock

/-! ## `_update_last_updated` -/

/-- `_update_last_updated`. -/
def updateLastUpdated (content heading dateStr : Str) : Str × Bool :=
  match findVersionBlock content heading with
  | none => (content, false)
  | some (i, j) =>
    let block := blockSlice content i j
    let updatedBlock :=
      match subLastUpdated dateStr block with
      | some b => b
      | none =>
        let lines := splitlines block
        if lastUpdatedLit.isPrefixOf (lines.getD 1 []) then
          joinNl (lines.set 1 (str "_Last updated: " ++ dateStr ++ str "_"))
        else replaceFirst block heading (heading ++ nl :: (str "_Last updated: " ++ dateStr ++ str "_"))
    if updatedBlock = block then (content, false)
    else (content.take i ++ updatedBlock ++ content.drop j, true)

/-! ## `_ensure_version_block` -/

/-- The span of `re.search(r"## \[Unreleased\].*?(?=\n## |\Z)", ..., re.DOTALL)`. -/
def findUnreleased (content : Str) : Option (Nat × Nat) :=
  match findSub content (str "## [Unreleased]") with
  | none => none
  | some i => some (i, findBlockEnd content (i + (str "## [Unreleased]").length))

/-- `re.search(r"^# .*?(\n|\Z)", content).end()`: the insertion point after the
top-level title heading, when the document starts with `# `. -/
def headerMatchEnd (content : Str) : Option Nat :=
  if (str "# ").isPrefixOf content then
    match findSub content [nl] with
    | some k => some (k + 1)
    | none => some content.length
  else none

/-- `_ensure_version_block`. -/
def ensureVersionBlock (content heading dateStr : Str) : Str × Bool :=
  if (findVersionBlock content heading).isSome then (content, false)
  else
    let version := strip (replaceFirst heading (str "##") [])
    let block0 := renderVersionBlock version dateStr emptySections
    let block := if (str "\n\n").isSuffixOf block0 then block0 else block0 ++ [nl]
    match findUnreleased content with
    | some (ui, uj) => (content.take ui ++ block ++ lstripNlChars (content.drop uj), true)
    | none =>
      if strip content = str "# Changelog" ∨ strip content = [] then
        let base := rstrip content
        (if base = [] then block else base ++ str "\n\n" ++ block, true)
      else
        let insertAt := (headerMatchEnd content).getD 0
        (content.take insertAt ++ nl :: (block ++ content.drop insertAt), true)

/-! ## `_categorize` -/

/-- Python `str.lower` over the ASCII range exercised here. -/
def lowerStr (s : Str) : Str := s.map Char.toLower

/-- Python `str.split()` (split on whitespace runs, no empty tokens). -/
def splitWsAux : Str → Str → List Str
  | [], acc => if acc.isEmpty then [] else [acc.reverse]
  | c :: rest, acc =>
    if isSpaceChar c then
      if acc.isEmpty then splitWsAux rest [] else acc.reverse :: splitWsAux rest []
    else splitWsAux rest (c :: acc)

/-- Python `str.split()`. -/
def splitWs (s : Str) : List Str := splitWsAux s []

/-- `_categorize`.  `none` models the `IndexError` raised by
`title_lower.split()[0]` when the subject is non-empty but whitespace-only. -/
def categorize (commitTitle : Str) : Option Str :=
  let titleLower := lowerStr commitTitle
  let firstWordOpt :=
    if titleLower.isEmpty then some []
    else (splitWs titleLower).head?
  match firstWordOpt with
  | none => none
  | some firstWord =>
    some (
      if (str "feat").isPrefixOf firstWord || containsSub titleLower (str "feat:") then
        str "feature"
      else if (str "fix").isPrefixOf firstWord || containsSub titleLower (str "fix:") then
        str "fix"
      else if (str "chore").isPrefixOf firstWord || containsSub titleLower (str "chore:") then
        str "change"
      else if (str "refactor").isPrefixOf firstWord || containsSub titleLower (str "refactor:")
          || containsSub titleLower (str "change") then
        str "change"
      else str "change")

/-! ## `_detect_ticket_id` (`TICKET_PATTERN`) -/

/-- `[A-Z]`. -/
def isUpperCh (c : Char) : Bool := 'A' ≤ c && c ≤ 'Z'

/-- `[A-Z0-9]`. -/
def isUpperDigitCh (c : Char) : Bool := isUpperCh c || c.isDigit

/-- A match of `([A-Z][A-Z0-9]+-\d+)` anchored at the front of the string. -/
def ticketMatchAt : Str → Option Str
  | [] => none
  | c :: rest =>
    if isUpperCh c then
      let run := rest.takeWhile isUpperDigitCh
      if run.isEmpty then none
      else
        match rest.drop run.length with
        | '-' :: rest2 =>
          let ds := rest2.takeWhile Char.isDigit
          if ds.isEmpty then none else some (c :: run ++ '-' :: ds)
        | _ => none
    else none

/-- `TICKET_PATTERN.search(s)`: group 1 of the leftmost match. -/
def searchTicket : Str → Option Str
  | [] => none
  | c :: rest =>
    match ticketMatchAt (c :: rest) with
    | some t => some t
    | none => searchTicket rest

/-- The candidate scan in `_detect_ticket_id`. -/
def scanCandidates : List Str → Option Str
  | [] => none
  | c :: cs =>
    match searchTicket c with
    | some t => some t
    | none => scanCandidates cs

/-- `_detect_ticket_id` (`forced = none` models Python `None`; the empty
string is falsy in Python, hence also scans the candidates). -/
def detectTicketId (forced : Option Str) (candidates : List Str) : Option Str :=
  match forced with
  | some f => if f.isEmpty then scanCandidates candidates else searchTicket f
  | none => scanCandidates candidates

end SmartChangelog

/-! ## Basic lemmas: substring containment and search -/

namespace SmartChangelog

theorem containsSub_true_iff {s pat : Str} : containsSub s pat = true ↔ pat <:+: s := by
  induction s with
  | nil =>
    simp [containsSub, List.isEmpty_iff]
  | cons c rest ih =>
    simp [containsSub, List.infix_cons_iff, ih]

theorem containsSub_eq_false_iff {s pat : Str} : containsSub s pat = false ↔ ¬ pat <:+: s := by
  rw [← containsSub_true_iff, Bool.not_eq_true, Bool.eq_false_iff, ne_eq, Bool.not_eq_true]

theorem findSub_prefixAt {pat : Str} :
    ∀ {s : Str} {i : Nat}, findSub s pat = some i → pat <+: s.drop i := by
  intro s
  induction s with
  | nil =>
    intro i h
    simp only [findSub] at h
    split at h
    · next hp =>
      cases h
      simp_all [List.isEmpty_iff]
    · exact absurd h (by simp)
  | cons c rest ih =>
    intro i h
    simp only [findSub] at h
    split at h
    · next hp =>
      cases h
      simpa using (List.isPrefixOf_iff_prefix).1 hp
    · next hp =>
      cases hfr : findSub rest pat with
      | none => rw [hfr] at h; simp at h
      | some i2 =>
        rw [hfr] at h
        simp only [Option.map_some', Option.some.injEq] at h
        subst h
        simpa using ih hfr

theorem findSub_min {pat : Str} :
    ∀ {s : Str} {i : Nat}, findSub s pat = some i → ∀ k, k < i → ¬ pat <+: s.drop k := by
  intro s
  induction s with
  | nil =>
    intro i h k hk
    simp only [findSub] at h
    split at h
    · cases h; omega
    · exact absurd h (by simp)
  | cons c rest ih =>
    intro i h k hk
    simp only [findSub] at h
    split at h
    · cases h; omega
    · next hp =>
      cases hfr : findSub rest pat with
      | none => rw [hfr] at h; simp at h
      | some i2 =>
        rw [hfr] at h
        simp only [Option.map_some', Option.some.injEq] at h
        subst h
        cases k with
        | zero =>
          intro hcon
          exact hp ((List.isPrefixOf_iff_prefix).2 (by simpa using hcon))
        | succ k2 =>
          simpa using ih hfr k2 (by omega)

theorem findSub_eq_some_of {pat : Str} :
    ∀ {s : Str} {i : Nat}, pat <+: s.drop i → (∀ k, k < i → ¬ pat <+: s.drop k) →
      findSub s pat = some i := by
  intro s
  induction s with
  | nil =>
    intro i hpre hmin
    simp only [List.drop_nil] at hpre
    have hpat : pat = [] := List.prefix_nil.1 hpre
    subst hpat
    have hi : i = 0 := by
      by_contra hne
      exact hmin 0 (by omega) (by simp)
    subst hi
    simp [findSub]
  | cons c rest ih =>
    intro i hpre hmin
    simp only [findSub]
    cases i with
    | zero =>
      simp only [List.drop_zero] at hpre
      rw [if_pos ((List.isPrefixOf_iff_prefix).2 hpre)]
    | succ i2 =>
      have hnp : ¬ pat.isPrefixOf (c :: rest) = true := by
        intro hp
        exact hmin 0 (by omega) (by simpa using (List.isPrefixOf_iff_prefix).1 hp)
      rw [if_neg hnp]
      have : findSub rest pat = some i2 := by
        apply ih
        · simpa using hpre
        · intro k hk hcon
          exact hmin (k + 1) (by omega) (by simpa using hcon)
      rw [this]
      rfl

theorem findSub_eq_none_iff {pat : Str} :
    ∀ {s : Str}, findSub s pat = none ↔ ∀ k, ¬ pat <+: s.drop k := by
  intro s
  induction s with
  | nil =>
    simp only [findSub]
    split
    · next hp =>
      rw [List.isEmpty_iff] at hp
      subst hp
      simp
    · next hp =>
      rw [List.isEmpty_iff] at hp
      simp only [List.drop_nil]
      constructor
      · intro _ k hcon
        exact hp (List.prefix_nil.1 hcon)
      · intro _
        trivial
  | cons c rest ih =>
    simp only [findSub]
    split
    · next hp =>
      constructor
      · intro h; exact absurd h (by simp)
      · intro h
        exact absurd ((List.isPrefixOf_iff_prefix).1 hp) (by simpa using h 0)
    · next hp =>
      constructor
      · intro h k
        have hfr : findSub rest pat = none := by
          cases hfr : findSub rest pat with
          | none => rfl
          | some i2 => rw [hfr] at h; simp at h
        cases k with
        | zero =>
          intro hcon
          exact hp ((List.isPrefixOf_iff_prefix).2 (by simpa using hcon))
        | succ k2 =>
          simpa using (ih.1 hfr) k2
      · intro h
        have hfr : findSub rest pat = none := by
          apply ih.2
          intro k hcon
          exact h (k + 1) (by simpa using hcon)
        rw [hfr]
        rfl

theorem prefix_append_cases {p a b : Str} (h : p <+: a ++ b) :
    p <+: a ∨ (a <+: p ∧ p.drop a.length <+: b) := by
  rcases h with ⟨t, ht⟩
  rcases List.append_eq_append_iff.1 ht with ⟨a2, ha, _⟩ | ⟨c2, hc, hb⟩
  · left
    exact ⟨a2, ha.symm⟩
  · right
    refine ⟨⟨c2, hc.symm⟩, ?_⟩
    subst hc
    rw [List.drop_left]
    exact ⟨t, hb.symm⟩

theorem prefix_append_of_length {p a b : Str} (h : p <+: a ++ b)
    (hl : p.length ≤ a.length) : p <+: a := by
  rcases prefix_append_cases h with h2 | ⟨h2, _⟩
  · exact h2
  · have h3 := List.IsPrefix.eq_of_length_le h2 hl
    rw [← h3]

end SmartChangelog

/-! ## Claims about the entry-list upsert, error handling, identifier detection
and categorization -/

namespace SmartChangelog

/-- C3: if the target category list holds the identifier's marker exactly at
index `i` (no other index carries it, per the documented invariant) and the
existing line differs from the new entry, the upsert replaces the line in
place: same length, the new line at index `i`, all other positions untouched,
and afterwards only index `i` carries the identifier. -/
theorem upsertEntryList_replace_in_place (l : List Str) (entry ticketId line : Str) (i : Nat)
    (hline : l[i]? = some line)
    (hmark : containsSub line ('(' :: ticketId) = true)
    (huniq : ∀ j y, l[j]? = some y → containsSub y ('(' :: ticketId) = true → j = i)
    (hdiff : strip line ≠ entry)
    (_hentry : containsSub entry ('(' :: ticketId) = true) :
    upsertEntryList entry ('(' :: ticketId) l = .changed (l.set i entry) ∧
    (l.set i entry).length = l.length ∧
    (l.set i entry)[i]? = some entry ∧
    (∀ j, j ≠ i → (l.set i entry)[j]? = l[j]?) ∧
    (∀ j y, (l.set i entry)[j]? = some y →
      containsSub y ('(' :: ticketId) = true → j = i) := by
  obtain ⟨hi, hgl⟩ := List.getElem?_eq_some_iff.1 hline
  have hfind : l.findIdx? (fun x => containsSub x ('(' :: ticketId)) = some i := by
    rw [List.findIdx?_eq_some_iff_getElem]
    refine ⟨hi, by rw [hgl]; exact hmark, ?_⟩
    intro j hji hcon
    have hj := huniq j (l.get ⟨j, Nat.lt_trans hji hi⟩)
      (List.getElem?_eq_some_iff.2 ⟨Nat.lt_trans hji hi, rfl⟩) (by simpa using hcon)
    omega
  have hgetd : l.getD i [] = line := by
    rw [List.getD_eq_getElem?_getD, hline]
    rfl
  refine ⟨?_, by simp, by simp [hi], ?_, ?_⟩
  · simp only [upsertEntryList, hfind]
    rw [hgetd, if_neg hdiff]
  · intro j hj
    exact List.getElem?_set_ne (by omega)
  · intro j y hget hcont
    by_cases hji : j = i
    · exact hji
    · rw [List.getElem?_set_ne (by omega)] at hget
      exact huniq j y hget hcont

/-- C3 witness. -/
theorem upsertEntryList_replace_in_place_witness :
    upsertEntryList (str "- New (ABC-1, Alice, 2025-01-03)") ('(' :: str "ABC-1")
      [str "- Old (ABC-1, Alice, 2025-01-01)", str "- Other (XYZ-2, Bob, 2025-01-01)"] =
      .changed [str "- New (ABC-1, Alice, 2025-01-03)", str "- Other (XYZ-2, Bob, 2025-01-01)"] := by
  have h := upsertEntryList_replace_in_place
    [str "- Old (ABC-1, Alice, 2025-01-01)", str "- Other (XYZ-2, Bob, 2025-01-01)"]
    (str "- New (ABC-1, Alice, 2025-01-03)") (str "ABC-1")
    (str "- Old (ABC-1, Alice, 2025-01-01)") 0
    (by decide) (by decide)
    (by intro j y hget hcont
        match j, hget with
        | 0, _ => rfl
        | 1, hget =>
          exfalso
          have : y = str "- Other (XYZ-2, Bob, 2025-01-01)" := by
            simpa [str] using hget.symm
          subst this
          exact absurd hcont (by decide))
    (by decide) (by decide)
  simpa [str] using h.1

/-- C4: if no line of the target category list contains the identifier's
marker, the upsert inserts the new entry at index 0 and keeps all previous
entries in their original order after it. -/
theorem upsertEntryList_insert_front (l : List Str) (entry marker : Str)
    (hnone : ∀ y ∈ l, containsSub y marker = false) :
    upsertEntryList entry marker l = .changed (entry :: l) := by
  have hfind : l.findIdx? (fun x => containsSub x marker) = none := by
    rw [List.findIdx?_eq_none_iff]
    exact hnone
  rw [upsertEntryList, hfind]

/-- C4 witness. -/
theorem upsertEntryList_insert_front_witness :
    upsertEntryList (str "- New (ABC-1, Alice, 2025-01-03)") ('(' :: str "ABC-1")
      [str "- Other (XYZ-2, Bob, 2025-01-01)"] =
      .changed [str "- New (ABC-1, Alice, 2025-01-03)", str "- Other (XYZ-2, Bob, 2025-01-01)"] := by
  have h := upsertEntryList_insert_front [str "- Other (XYZ-2, Bob, 2025-01-01)"]
    (str "- New (ABC-1, Alice, 2025-01-03)") ('(' :: str "ABC-1")
    (by decide)
  simpa [str] using h

/-- C8: whenever the target version block cannot be located, the upsert, the
last-updated rewrite and the block replacement each return the original
document unchanged together with `false`. -/
theorem missing_block_noop (content heading categoryHeading entry ticketId dateStr newBlock : Str)
    (h : findVersionBlock content heading = none) :
    upsertEntryForVersion content heading categoryHeading entry ticketId = (content, false) ∧
    updateLastUpdated content heading dateStr = (content, false) ∧
    replaceVersionBlock content heading newBlock = (content, false) := by
  refine ⟨?_, ?_, ?_⟩
  · rw [upsertEntryForVersion, h]
  · rw [updateLastUpdated, h]
  · rw [replaceVersionBlock, h]

/-- C8 witness. -/
theorem missing_block_noop_witness :
    upsertEntryForVersion (str "# Changelog\nno blocks here\n") (str "## 1.5")
      (sectionHeading .change) (str "- x (ABC-1)") (str "ABC-1") =
      (str "# Changelog\nno blocks here\n", false) := by
  have h := missing_block_noop (str "# Changelog\nno blocks here\n") (str "## 1.5")
    (sectionHeading .change) (str "- x (ABC-1)") (str "ABC-1") (str "2025-01-01")
    (str "## 1.5\n") (by decide)
  exact h.1

/-- C6: with a non-empty forced override the detector returns the first
ticket-pattern match inside the override (never consulting the candidates),
otherwise it scans the candidates in order and returns the first match;
the forced value "not-a-ticket" yields none. -/
theorem detectTicketId_spec (f : Str) (cands cands2 : List Str) (hf : f ≠ []) :
    detectTicketId (some f) cands = searchTicket f ∧
    detectTicketId (some f) cands = detectTicketId (some f) cands2 ∧
    (∀ c cs t, searchTicket c = some t → detectTicketId none (c :: cs) = some t) ∧
    (∀ c cs, searchTicket c = none → detectTicketId none (c :: cs) = detectTicketId none cs) ∧
    detectTicketId none ([] : List Str) = none ∧
    detectTicketId (some (str "not-a-ticket")) cands = none := by
  have hfe : f.isEmpty = false := by
    cases f with
    | nil => exact absurd rfl hf
    | cons a l => rfl
  refine ⟨?_, ?_, ?_, ?_, rfl, ?_⟩
  · simp [detectTicketId, hfe]
  · simp [detectTicketId, hfe]
  · intro c cs t h
    simp [detectTicketId, scanCandidates, h]
  · intro c cs h
    simp [detectTicketId, scanCandidates, h]
  · have h1 : (str "not-a-ticket").isEmpty = false := by decide
    simp only [detectTicketId, h1, Bool.false_eq_true, if_false]
    decide

/-- C6 witness. -/
theorem detectTicketId_spec_witness :
    detectTicketId (some (str "ABC-77")) [str "ZZZ-9 noise"] = some (str "ABC-77") := by
  have h := detectTicketId_spec (str "ABC-77") [str "ZZZ-9 noise"] [] (by decide)
  rw [h.1]
  decide

/-- C10: an empty forced ticket value is falsy in Python, so detection with it
behaves exactly as with no override: the candidates are scanned in order and
the first pattern match is returned. -/
theorem detectTicketId_empty_forced (cands : List Str) :
    detectTicketId (some []) cands = detectTicketId none cands ∧
    detectTicketId (some []) [str "feature/ABC-88"] = some (str "ABC-88") := by
  exact ⟨rfl, by decide⟩

/-- C9: the three category-detection scenarios hold, but the categorizer is
not total: a non-empty whitespace-only subject makes `title_lower.split()[0]`
raise `IndexError` (modelled as `none`); on every other input the result is
one of feature/fix/change. -/
theorem categorize_spec :
    categorize (str "feat: add endpoint") = some (str "feature") ∧
    categorize (str "fix: null pointer") = some (str "fix") ∧
    categorize (str "chore: bump deps") = some (str "change") ∧
    categorize (str " ") = none ∧
    (∀ s, categorize s = none ∨ categorize s = some (str "feature") ∨
      categorize s = some (str "fix") ∨ categorize s = some (str "change")) := by
  refine ⟨by decide, by decide, by decide, by decide, ?_⟩
  intro s
  rw [categorize]
  cases hw : (if (lowerStr s).isEmpty = true then some ([] : Str)
      else (splitWs (lowerStr s)).head?) with
  | none => left; rfl
  | some fw =>
    simp only []
    split_ifs <;> simp

end SmartChangelog

/-! ## Infix decomposition along line structure -/

namespace SmartChangelog

theorem infix_iff_exists_drop {t s : Str} : t <:+: s ↔ ∃ k, t <+: s.drop k := by
  constructor
  · rintro ⟨pre, post, h⟩
    refine ⟨pre.length, ?_⟩
    rw [← h, List.append_assoc, List.drop_left]
    exact List.prefix_append t post
  · rintro ⟨k, post, hpost⟩
    exact ⟨s.take k, post, by rw [List.append_assoc, hpost, List.take_append_drop]⟩

theorem infix_append_split {t a b : Str} (h : t <:+: a ++ b) :
    t <:+: a ∨ t <:+: b ∨
      ∃ t1 t2, t = t1 ++ t2 ∧ t1 ≠ [] ∧ t2 ≠ [] ∧ t1 <:+ a ∧ t2 <+: b := by
  rcases h with ⟨s, e, hse⟩
  have hse2 : (s ++ t) ++ e = a ++ b := by
    rw [← hse]
  rcases List.append_eq_append_iff.1 hse2 with ⟨a2, ha, _⟩ | ⟨c2, hst, hb⟩
  · left
    exact ⟨s, a2, ha.symm⟩
  · rcases List.append_eq_append_iff.1 hst with ⟨a3, ha3, hc⟩ | ⟨c3, _, hc3⟩
    · by_cases h3 : a3 = []
      · subst h3
        rw [List.append_nil] at ha3
        right; left
        rw [hc, List.nil_append]
        exact List.IsPrefix.isInfix ⟨e, hb.symm⟩
      · by_cases h2 : c2 = []
        · subst h2
          rw [List.append_nil] at hc
          left
          rw [hc]
          exact List.IsSuffix.isInfix ⟨s, ha3.symm⟩
        · right; right
          exact ⟨a3, c2, hc, h3, h2, ⟨s, ha3.symm⟩, ⟨e, hb.symm⟩⟩
    · right; left
      refine ⟨c3, e, ?_⟩
      rw [hb, hc3]

theorem infix_cons_of_notMem {t : Str} {c : Char} {b : Str} (hc : c ∉ t) (ht : t ≠ [])
    (h : t <:+: c :: b) : t <:+: b := by
  rcases List.infix_cons_iff.1 h with h2 | h2
  · exfalso
    rcases List.prefix_cons_iff.1 h2 with h3 | ⟨t3, h3, _⟩
    · exact ht h3
    · exact hc (h3 ▸ List.mem_cons_self c t3)
  · exact h2

theorem joinNl_cons_cons (l l2 : Str) (ls : List Str) :
    joinNl (l :: l2 :: ls) = l ++ nl :: joinNl (l2 :: ls) := rfl

theorem not_infix_joinNl {pat : Str} (hne : pat ≠ []) (hnl : nl ∉ pat) :
    ∀ {lines : List Str}, (∀ l ∈ lines, ¬ pat <:+: l) → ¬ pat <:+: joinNl lines := by
  intro lines
  induction lines with
  | nil =>
    intro _ h
    exact hne (List.infix_nil.1 h)
  | cons l ls ih =>
    intro hl h
    cases ls with
    | nil => exact hl l (by simp) h
    | cons l2 ls2 =>
      rw [joinNl_cons_cons] at h
      rcases infix_append_split h with h2 | h2 | ⟨t1, t2, ht, _, h2ne, _, hpre⟩
      · exact hl l (by simp) h2
      · exact ih (fun x hx => hl x (by simp [hx])) (infix_cons_of_notMem hnl hne h2)
      · apply hnl
        rw [ht]
        rcases List.prefix_cons_iff.1 hpre with h3 | ⟨t3, h3, _⟩
        · exact absurd h3 h2ne
        · rw [h3]
          simp

/-- Decomposing an occurrence of `p ++ [nl]` (with `p` newline-free) across a
line boundary: either `p` is a suffix of the first line or the occurrence lies
in the remainder. -/
theorem headingNl_infix_append_cons {p a z : Str} (hp : nl ∉ p) (ha : nl ∉ a) :
    (p ++ [nl]) <:+: a ++ nl :: z ↔ p <:+ a ∨ (p ++ [nl]) <:+: z := by
  constructor
  · intro h
    rcases infix_append_split h with h2 | h2 | ⟨t1, t2, ht, h1ne, h2ne, hsuf, hpre⟩
    · exfalso
      exact ha (h2.subset (by simp))
    · rcases List.infix_cons_iff.1 h2 with h3 | h3
      · cases p with
        | nil => exact Or.inl List.nil_suffix
        | cons c p2 =>
          exfalso
          rcases List.prefix_cons_iff.1 h3 with h4 | ⟨t4, h4, _⟩
          · exact absurd h4 (by simp)
          · have h5 : c = nl := by
              have h6 := congrArg (fun l => l.head?) h4
              simpa using h6
            exact hp (h5 ▸ List.mem_cons_self c p2)
      · exact Or.inr h3
    · rcases List.append_eq_append_iff.1 ht with ⟨a2, ha2, hnl2⟩ | ⟨c2, hp2, ht2⟩
      · -- t1 = p ++ a2, [nl] = a2 ++ t2; since t2 ≠ [] we get a2 = [], t1 = p
        left
        cases a2 with
        | nil =>
          rw [List.append_nil] at ha2
          exact ha2 ▸ hsuf
        | cons x xs =>
          exfalso
          cases t2 with
          | nil => exact h2ne rfl
          | cons y ys =>
            have hlen := congrArg List.length hnl2
            rw [List.length_append] at hlen
            simp only [List.length_cons, List.length_nil] at hlen
            omega
      · -- p = t1 ++ c2, t2 = c2 ++ [nl]; t2 <+: nl :: z forces c2 = []
        cases c2 with
        | nil =>
          left
          rw [List.append_nil] at hp2
          exact hp2 ▸ hsuf
        | cons d c3 =>
          exfalso
          have hd : d = nl := by
            rw [ht2] at hpre
            rcases List.prefix_cons_iff.1 hpre with h4 | ⟨t4, h4, _⟩
            · exact absurd h4 (by simp)
            · have h6 := congrArg (fun l => l.head?) h4
              simpa using h6
          apply hp
          rw [hp2, hd]
          simp
  · intro h
    rcases h with ⟨x, hx⟩ | ⟨s, e, hse⟩
    · exact ⟨x, z, by rw [← hx]; simp⟩
    · exact ⟨a ++ nl :: s, e, by rw [← hse]; simp⟩

end SmartChangelog

/-! ## Line structure of a document; block end search -/

namespace SmartChangelog

theorem splitAll_ne_nil : ∀ (s : Str), splitAll s ≠ [] := by
  intro s
  cases s with
  | nil => simp [splitAll]
  | cons c rest =>
    simp only [splitAll]
    by_cases hc : c = nl
    · rw [if_pos hc]; simp
    · rw [if_neg hc]
      cases splitAll rest <;> simp

theorem joinNl_cons_head (c : Char) (p : Str) (ps : List Str) :
    joinNl ((c :: p) :: ps) = c :: joinNl (p :: ps) := by
  cases ps <;> rfl

theorem joinNl_splitAll : ∀ (s : Str), joinNl (splitAll s) = s := by
  intro s
  induction s with
  | nil => rfl
  | cons c rest ih =>
    simp only [splitAll]
    by_cases hc : c = nl
    · rw [if_pos hc]
      cases hsp : splitAll rest with
      | nil => exact absurd hsp (splitAll_ne_nil rest)
      | cons p ps =>
        rw [hsp] at ih
        rw [joinNl_cons_cons, List.nil_append, ih, hc]
    · rw [if_neg hc]
      cases hsp : splitAll rest with
      | nil => exact absurd hsp (splitAll_ne_nil rest)
      | cons p ps =>
        rw [hsp] at ih
        rw [joinNl_cons_head, ih]

theorem not_nl_mem_splitAll : ∀ (s : Str), ∀ p ∈ splitAll s, nl ∉ p := by
  intro s
  induction s with
  | nil =>
    intro p hp
    simp only [splitAll, List.mem_singleton] at hp
    subst hp
    simp
  | cons c rest ih =>
    intro p hp
    simp only [splitAll] at hp
    by_cases hc : c = nl
    · rw [if_pos hc] at hp
      rcases List.mem_cons.1 hp with h1 | h1
      · subst h1; simp
      · exact ih p h1
    · rw [if_neg hc] at hp
      cases hsp : splitAll rest with
      | nil => exact absurd hsp (splitAll_ne_nil rest)
      | cons q qs =>
        rw [hsp] at hp
        rcases List.mem_cons.1 hp with h1 | h1
        · subst h1
          intro hmem
          rcases List.mem_cons.1 hmem with h2 | h2
          · exact hc h2.symm
          · exact ih q (by rw [hsp]; exact List.mem_cons_self q qs) h2
        · exact ih p (by rw [hsp]; exact List.mem_cons_of_mem q h1)

theorem headingNl_infix_join_iff {p : Str} (hp : nl ∉ p) :
    ∀ {lines : List Str}, lines ≠ [] → (∀ l ∈ lines, nl ∉ l) →
      ((p ++ [nl]) <:+: joinNl lines ↔ ∃ piece ∈ lines.dropLast, p <:+ piece) := by
  intro lines
  induction lines with
  | nil => intro h; exact absurd rfl h
  | cons l ls ih =>
    intro _ hnl2
    cases ls with
    | nil =>
      simp only [joinNl, List.dropLast_single]
      constructor
      · intro h
        exfalso
        exact (hnl2 l (by simp)) (h.subset (by simp))
      · rintro ⟨piece, hmem, _⟩
        simp at hmem
    | cons l2 ls2 =>
      rw [joinNl_cons_cons,
        headingNl_infix_append_cons hp (hnl2 l (List.mem_cons_self l (l2 :: ls2))),
        ih (by simp) (fun x hx => hnl2 x (List.mem_cons_of_mem l hx)),
        List.dropLast_cons₂]
      constructor
      · rintro (h | ⟨piece, hmem, hsuf⟩)
        · exact ⟨l, List.mem_cons_self l _, h⟩
        · exact ⟨piece, List.mem_cons_of_mem l hmem, hsuf⟩
      · rintro ⟨piece, hmem, hsuf⟩
        rcases List.mem_cons.1 hmem with h1 | h1
        · subst h1
          exact Or.inl hsuf
        · exact Or.inr ⟨piece, h1, hsuf⟩

theorem findSub_bound {pat : Str} :
    ∀ {s : Str} {i : Nat}, findSub s pat = some i → i + pat.length ≤ s.length := by
  intro s
  induction s with
  | nil =>
    intro i h
    simp only [findSub] at h
    split at h
    · next hp =>
      cases h
      rw [List.isEmpty_iff] at hp
      subst hp
      simp
    · exact absurd h (by simp)
  | cons c rest ih =>
    intro i h
    simp only [findSub] at h
    split at h
    · next hpf =>
      cases h
      have := (List.isPrefixOf_iff_prefix.1 hpf).length_le
      simpa using this
    · cases hfr : findSub rest pat with
      | none => rw [hfr] at h; simp at h
      | some i2 =>
        rw [hfr] at h
        simp only [Option.map_some', Option.some.injEq] at h
        subst h
        have := ih hfr
        simp only [List.length_cons]
        omega

theorem findBlockEnd_spec (content : Str) :
    ∀ (j0 : Nat), j0 ≤ content.length →
      j0 ≤ findBlockEnd content j0 ∧ findBlockEnd content j0 ≤ content.length ∧
      versionLookahead content (findBlockEnd content j0) = true ∧
      (∀ k, j0 ≤ k → k < findBlockEnd content j0 → versionLookahead content k = false) := by
  have H : ∀ (n j0 : Nat), content.length - j0 = n → j0 ≤ content.length →
      (j0 ≤ findBlockEnd content j0 ∧ findBlockEnd content j0 ≤ content.length ∧
       versionLookahead content (findBlockEnd content j0) = true ∧
       (∀ k, j0 ≤ k → k < findBlockEnd content j0 → versionLookahead content k = false)) := by
    intro n
    induction n with
    | zero =>
      intro j0 hn hle
      have hj : content.length ≤ j0 := by omega
      unfold findBlockEnd
      rw [dif_pos hj]
      refine ⟨hle, le_refl _, by simp [versionLookahead], ?_⟩
      intro k h1 h2
      omega
    | succ n ih =>
      intro j0 hn hle
      have hlt : j0 < content.length := by omega
      unfold findBlockEnd
      rw [dif_neg (by omega)]
      by_cases hv : versionLookahead content j0 = true
      · rw [if_pos hv]
        exact ⟨le_refl _, by omega, hv, by intro k h1 h2; omega⟩
      · rw [if_neg hv]
        obtain ⟨h1, h2, h3, h4⟩ := ih (j0 + 1) (by omega) (by omega)
        refine ⟨by omega, h2, h3, ?_⟩
        intro k hk1 hk2
        by_cases hkj : k = j0
        · subst hkj
          exact Bool.eq_false_iff.2 hv
        · exact h4 k (by omega) hk2
  intro j0 hle
  exact H (content.length - j0) j0 rfl hle

end SmartChangelog

/-! ## C7: exactness of `_find_version_block` -/

namespace SmartChangelog

/-- C7 counterexample: the search is not anchored to line starts, so a span is
matched in a document in which no line is exactly the sought heading (the
heading occurs at the end of a longer line). -/
theorem findVersionBlock_midline_counterexample :
    (findVersionBlock (str "x## 1.5\nbody") (str "## 1.5")).isSome = true ∧
    ∀ piece ∈ splitAll (str "x## 1.5\nbody"), piece ≠ str "## 1.5" := by
  decide

/-- C7 (amended): a block is found exactly when the heading, immediately
followed by a newline, occurs in the document — equivalently, when some
non-final line has the heading as a suffix.  The span starts at the leftmost
such occurrence and ends at the smallest position from which the lookahead
`\n## ` (or the document end) is visible; a heading line merely extended on
the right (e.g. `## 1.5.1` when searching `## 1.5`) is never matched, but the
match is not anchored to the start of a line. -/
theorem findVersionBlock_exactness (content heading : Str) (hnl : nl ∉ heading) :
    ((findVersionBlock content heading).isSome ↔
      ∃ piece ∈ (splitAll content).dropLast, heading <:+ piece) ∧
    (∀ i j, findVersionBlock content heading = some (i, j) →
      (heading ++ [nl]) <+: content.drop i ∧
      (∀ k, k < i → ¬ (heading ++ [nl]) <+: content.drop k) ∧
      i + heading.length + 1 ≤ j ∧ j ≤ content.length ∧
      versionLookahead content j = true ∧
      (∀ k, i + heading.length + 1 ≤ k → k < j → versionLookahead content k = false)) ∧
    findVersionBlock (str "# C\n## 1.5.1\n- a\n") (str "## 1.5") = none := by
  refine ⟨?_, ?_, by decide⟩
  · have h1 : (findVersionBlock content heading).isSome = true ↔
        findSub content (heading ++ [nl]) ≠ none := by
      rw [findVersionBlock]
      cases hfs : findSub content (heading ++ [nl]) <;> simp
    rw [h1]
    have h2 : findSub content (heading ++ [nl]) ≠ none ↔ (heading ++ [nl]) <:+: content := by
      constructor
      · intro hne
        cases hfs : findSub content (heading ++ [nl]) with
        | none => exact absurd hfs hne
        | some i => exact infix_iff_exists_drop.2 ⟨i, findSub_prefixAt hfs⟩
      · intro hinf hnone
        rcases infix_iff_exists_drop.1 hinf with ⟨k, hk⟩
        exact (findSub_eq_none_iff.1 hnone) k hk
    rw [h2]
    have h3 := headingNl_infix_join_iff (p := heading) hnl (splitAll_ne_nil content)
      (not_nl_mem_splitAll content)
    rw [joinNl_splitAll content] at h3
    exact h3
  · intro i j hfind
    rw [findVersionBlock] at hfind
    cases hfs : findSub content (heading ++ [nl]) with
    | none =>
      rw [hfs] at hfind
      exact absurd hfind (by simp)
    | some i2 =>
      rw [hfs] at hfind
      simp only [Option.some.injEq, Prod.mk.injEq] at hfind
      rcases hfind with ⟨rfl, rfl⟩
      have hb := findSub_bound hfs
      rw [List.length_append, List.length_singleton] at hb
      obtain ⟨hs1, hs2, hs3, hs4⟩ := findBlockEnd_spec content (i2 + heading.length + 1)
        (by omega)
      exact ⟨findSub_prefixAt hfs, fun k hk => findSub_min hfs k hk, hs1, hs2, hs3, hs4⟩

/-- C7 witness. -/
theorem findVersionBlock_exactness_witness :
    ∃ piece ∈ (splitAll (str "# C\n## 1.5\nbody")).dropLast, (str "## 1.5") <:+ piece := by
  have h := findVersionBlock_exactness (str "# C\n## 1.5\nbody") (str "## 1.5") (by decide)
  exact h.1.mp (by decide)

end SmartChangelog

/-! ## Flat line concatenation and marker positions inside a rendered block -/

namespace SmartChangelog

/-- The characters of a line list when every line is terminated by a newline
(the shape of a rendered block, whose final rendered line is empty). -/
def linesFlat (ls : List Str) : Str := ls.foldr (fun l acc => l ++ nl :: acc) []

theorem linesFlat_nil : linesFlat [] = [] := rfl

theorem linesFlat_cons (l : Str) (ls : List Str) :
    linesFlat (l :: ls) = l ++ nl :: linesFlat ls := rfl

theorem linesFlat_append (a b : List Str) :
    linesFlat (a ++ b) = linesFlat a ++ linesFlat b := by
  induction a with
  | nil => rfl
  | cons l ls ih =>
    rw [List.cons_append, linesFlat_cons, linesFlat_cons, ih, List.append_assoc]
    rfl

theorem joinNl_append_nil (ls : List Str) :
    joinNl (ls ++ [[]]) = linesFlat ls := by
  induction ls with
  | nil => rfl
  | cons l ls ih =>
    cases ls with
    | nil => rfl
    | cons l2 ls2 =>
      simp only [List.cons_append] at ih ⊢
      rw [joinNl_cons_cons, linesFlat_cons, ← ih]

theorem joinNl_eq_linesFlat_dropLastNl (ls : List Str) (h : ls ≠ []) :
    linesFlat ls = joinNl ls ++ [nl] := by
  induction ls with
  | nil => exact absurd rfl h
  | cons l ls ih =>
    cases ls with
    | nil => rfl
    | cons l2 ls2 =>
      rw [linesFlat_cons, joinNl_cons_cons, ih (by simp), List.append_assoc]
      rfl

theorem splitAll_linesFlat (ls : List Str) (h0 : ls ≠ []) (hnl : ∀ l ∈ ls, nl ∉ l) :
    splitAll (linesFlat ls) = ls ++ [[]] := by
  have h1 : linesFlat ls = joinNl (ls ++ [[]]) := (joinNl_append_nil ls).symm
  rw [h1]
  clear h1
  induction ls with
  | nil => exact absurd rfl h0
  | cons l ls ih =>
    have hfirst : ∀ (z : Str), splitAll (l ++ nl :: z) = l :: splitAll z := by
      have hl : nl ∉ l := hnl l (by simp)
      clear ih h0 hnl
      induction l with
      | nil =>
        intro z
        simp [splitAll, nl]
      | cons c cs ihc =>
        intro z
        have hcnl : c ≠ nl := by
          intro hcc
          exact hl (hcc ▸ List.mem_cons_self c cs)
        have hcs : nl ∉ cs := fun hmem => hl (List.mem_cons_of_mem c hmem)
        simp only [List.cons_append, splitAll, if_neg hcnl, List.append_eq]
        rw [ihc hcs z]
    cases ls with
    | nil =>
      have := hfirst []
      simpa [joinNl, splitAll] using hfirst []
    | cons l2 ls2 =>
      simp only [List.cons_append] at ih ⊢
      rw [joinNl_cons_cons, hfirst,
        ih (by simp) (fun x hx => hnl x (List.mem_cons_of_mem l hx))]

theorem not_infix_linesFlat {pat : Str} (hne : pat ≠ []) (hnl : nl ∉ pat)
    {ls : List Str} (h : ∀ l ∈ ls, ¬ pat <:+: l) : ¬ pat <:+: linesFlat ls := by
  rw [← joinNl_append_nil]
  apply not_infix_joinNl hne hnl
  intro l hl
  rcases List.mem_append.1 hl with h1 | h1
  · exact h l h1
  · rcases List.mem_singleton.1 h1 with rfl
    intro hcon
    exact hne (List.infix_nil.1 hcon)

/-- The first occurrence of a newline-free pattern that starts its own line,
after a prefix of complete lines none of which contains the pattern. -/
theorem findSub_marker_pos {pat : Str} (hne : pat ≠ []) (hnl : nl ∉ pat)
    {pre : List Str} (hpre0 : pre ≠ []) (hpre : ∀ l ∈ pre, ¬ pat <:+: l) (z : Str) :
    findSub (linesFlat pre ++ (pat ++ z)) pat = some (linesFlat pre).length := by
  apply findSub_eq_some_of
  · rw [List.drop_left]
    exact List.prefix_append pat z
  · intro k hk hcon
    have hA : linesFlat pre = joinNl pre ++ [nl] := joinNl_eq_linesFlat_dropLastNl pre hpre0
    rw [List.drop_append_of_le_length (by omega)] at hcon
    rcases prefix_append_cases hcon with h1 | ⟨h1, _⟩
    · -- pat inside the dropped prefix of the line block
      have h2 : pat <:+: linesFlat pre :=
        List.IsInfix.trans (List.IsPrefix.isInfix h1)
          ⟨(linesFlat pre).take k, [], by simp⟩
      exact not_infix_linesFlat hne hnl hpre h2
    · -- the dropped prefix embeds into the pattern: it contains the final newline
      apply hnl
      apply h1.subset
      rw [hA, List.drop_append_of_le_length (by rw [hA] at hk; simp at hk; omega)]
      simp

/-- Extracting the middle piece of a structured concatenation. -/
theorem slice_middle (x mid y : Str) :
    ((x ++ mid ++ y).drop x.length).take mid.length = mid := by
  rw [List.append_assoc, List.drop_left, List.take_append_of_le_length (le_refl _),
    List.take_length]

end SmartChangelog

/-! ## Well-formedness predicates and the structural form of a rendered block -/

namespace SmartChangelog

/-- The claim's well-formedness of an entry line: non-blank, trimmed of
trailing whitespace, not starting with `###`, containing no section-marker
text — and a single line (no embedded newline), as the word "line" requires. -/
def entryOk (e : Str) : Bool :=
  !(blankLine e) && (rstrip e == e) && !((str "###").isPrefixOf e) &&
  !(containsSub e (startMarker .feature)) && !(containsSub e (endMarker .feature)) &&
  !(containsSub e (startMarker .fix)) && !(containsSub e (endMarker .fix)) &&
  !(containsSub e (startMarker .change)) && !(containsSub e (endMarker .change)) &&
  !(decide (nl ∈ e))

/-- Well-formedness of a version label: stripped, single-line, and the heading
line `## <v>` contains neither the last-updated literal nor marker text. -/
def versionOk (v : Str) : Bool :=
  (strip v == v) && !(decide (nl ∈ v)) &&
  !(containsSub (str "## " ++ v) lastUpdatedLit) &&
  !(containsSub (str "## " ++ v) (startMarker .feature)) &&
  !(containsSub (str "## " ++ v) (endMarker .feature)) &&
  !(containsSub (str "## " ++ v) (startMarker .fix)) &&
  !(containsSub (str "## " ++ v) (endMarker .fix)) &&
  !(containsSub (str "## " ++ v) (startMarker .change)) &&
  !(containsSub (str "## " ++ v) (endMarker .change))

/-- A date string of the exact shape `\d{4}-\d{2}-\d{2}`. -/
def validDate (d : Str) : Bool :=
  match parseDateAt d with
  | some (_, rest) => rest.isEmpty
  | none => false

/-- A section's lines without the trailing blank line. -/
def sectCore (k : SectionKey) (e : List Str) : List Str :=
  [startMarker k] ++
    (if e.isEmpty then [] else [sectionHeading k, []] ++ e ++ [[]]) ++ [endMarker k]

/-- All rendered lines except the final empty one. -/
def coreList (v d : Str) (s : Sections) : List Str :=
  [str "## " ++ v, str "_Last updated: " ++ d ++ str "_", []] ++
    sectCore .feature s.feature ++ [[]] ++ sectCore .fix s.fix ++ [[]] ++
    sectCore .change s.change

theorem sectionLines_eq (k : SectionKey) (e : List Str) :
    sectionLines k e = sectCore k e ++ [[]] := by
  simp [sectionLines, sectCore, List.append_assoc]

theorem renderLines_eq (v d : Str) (s : Sections) :
    renderLines v d s = coreList v d s ++ [[]] := by
  simp [renderLines, coreList, sectionLines_eq, List.append_assoc]

theorem renderFallback_flat (v d : Str) (s : Sections) :
    renderVersionBlockFallback v d s = linesFlat (coreList v d s) := by
  rw [renderVersionBlockFallback, renderLines_eq, joinNl_append_nil]

theorem coreList_ne_nil (v d : Str) (s : Sections) : coreList v d s ≠ [] := by
  simp [coreList]

theorem sectCore_eq_append (k : SectionKey) (e : List Str) :
    ∃ Y, sectCore k e = Y ++ [endMarker k] := by
  refine ⟨[startMarker k] ++
    (if e.isEmpty then [] else [sectionHeading k, []] ++ e ++ [[]]), ?_⟩
  simp [sectCore, List.append_assoc]

theorem coreList_eq_append (v d : Str) (s : Sections) :
    ∃ Y, Y ≠ [] ∧ coreList v d s = Y ++ [endMarker .change] := by
  obtain ⟨Y, hY⟩ := sectCore_eq_append .change s.change
  refine ⟨[str "## " ++ v, str "_Last updated: " ++ d ++ str "_", []] ++
    sectCore .feature s.feature ++ [[]] ++ sectCore .fix s.fix ++ [[]] ++ Y,
    by simp, ?_⟩
  rw [coreList, hY]
  simp [List.append_assoc]

theorem joinNl_append_singleton (ys : List Str) (z : Str) (h : ys ≠ []) :
    joinNl (ys ++ [z]) = joinNl ys ++ nl :: z := by
  induction ys with
  | nil => exact absurd rfl h
  | cons y ys ih =>
    cases ys with
    | nil => rfl
    | cons y2 ys2 =>
      simp only [List.cons_append] at ih ⊢
      rw [joinNl_cons_cons, joinNl_cons_cons, ih (by simp)]
      simp

theorem dropWhile_eq_self_of_head? {p : Char → Bool} {s : Str}
    (h : ∀ c, s.head? = some c → p c = false) : s.dropWhile p = s := by
  cases s with
  | nil => rfl
  | cons c rest =>
    have := h c rfl
    rw [List.dropWhile_cons_of_neg (by simp [this])]

theorem rstrip_of_getLast? {s : Str}
    (h : ∀ c, s.getLast? = some c → isSpaceChar c = false) : rstrip s = s := by
  rw [rstrip, dropWhile_eq_self_of_head?, List.reverse_reverse]
  intro c hc
  exact h c (by rwa [List.head?_reverse] at hc)

theorem rstrip_append_nl {W : Str}
    (h : ∀ c, W.getLast? = some c → isSpaceChar c = false) :
    rstrip (W ++ [nl]) = W := by
  rw [rstrip, List.reverse_append]
  have h1 : ([nl].reverse ++ W.reverse) = nl :: W.reverse := by simp
  rw [h1, List.dropWhile_cons_of_pos (by simp [isSpaceChar, nl]),
    dropWhile_eq_self_of_head?, List.reverse_reverse]
  intro c hc
  exact h c (by rwa [List.head?_reverse] at hc)

theorem lstrip_eq_self_of_head? {s : Str}
    (h : ∀ c, s.head? = some c → isSpaceChar c = false) : lstrip s = s :=
  dropWhile_eq_self_of_head? h

theorem stripNl_append_nl {W : Str}
    (hh : ∀ c, W.head? = some c → c ≠ nl)
    (hl : ∀ c, W.getLast? = some c → c ≠ nl) :
    stripNlChars (W ++ [nl]) = W := by
  cases W with
  | nil => rfl
  | cons c w =>
    have hc : c ≠ nl := hh c rfl
    rw [stripNlChars, List.cons_append, List.dropWhile_cons_of_neg (by simp [hc]),
      ← List.cons_append, List.reverse_append]
    have h1 : ([nl].reverse ++ (c :: w).reverse) = nl :: (c :: w).reverse := by simp
    rw [h1, List.dropWhile_cons_of_pos (by simp), dropWhile_eq_self_of_head?,
      List.reverse_reverse]
    intro d hd
    rw [List.head?_reverse] at hd
    simpa using hl d hd

theorem stripNl_eq_self {W : Str}
    (hh : ∀ c, W.head? = some c → c ≠ nl)
    (hl : ∀ c, W.getLast? = some c → c ≠ nl) :
    stripNlChars W = W := by
  have h1 : W.dropWhile (· = nl) = W := by
    apply dropWhile_eq_self_of_head?
    intro c hc
    simpa using hh c hc
  rw [stripNlChars, h1, dropWhile_eq_self_of_head?, List.reverse_reverse]
  intro c hc
  rw [List.head?_reverse] at hc
  simpa using hl c hc

end SmartChangelog

/-! ## Splitting a rendered block back into its lines -/

namespace SmartChangelog

theorem splitAll_no_nl : ∀ {l : Str}, nl ∉ l → splitAll l = [l] := by
  intro l
  induction l with
  | nil => intro _; rfl
  | cons c cs ih =>
    intro h
    have hc : c ≠ nl := fun hcc => h (hcc ▸ List.mem_cons_self c cs)
    have hcs : nl ∉ cs := fun hm => h (List.mem_cons_of_mem c hm)
    simp only [splitAll, if_neg hc, ih hcs]

theorem splitAll_line_append : ∀ {l : Str}, nl ∉ l → ∀ (z : Str),
    splitAll (l ++ nl :: z) = l :: splitAll z := by
  intro l
  induction l with
  | nil =>
    intro _ z
    simp [splitAll, nl]
  | cons c cs ih =>
    intro hl z
    have hc : c ≠ nl := fun hcc => hl (hcc ▸ List.mem_cons_self c cs)
    have hcs : nl ∉ cs := fun hm => hl (List.mem_cons_of_mem c hm)
    simp only [List.cons_append, splitAll, if_neg hc, List.append_eq]
    rw [ih hcs z]

theorem splitAll_joinNl : ∀ {ls : List Str}, ls ≠ [] → (∀ l ∈ ls, nl ∉ l) →
    splitAll (joinNl ls) = ls := by
  intro ls
  induction ls with
  | nil => intro h _; exact absurd rfl h
  | cons l ls ih =>
    intro _ hnl
    cases ls with
    | nil => exact splitAll_no_nl (hnl l (by simp))
    | cons l2 ls2 =>
      rw [joinNl_cons_cons, splitAll_line_append (hnl l (by simp)),
        ih (by simp) (fun x hx => hnl x (List.mem_cons_of_mem l hx))]

theorem joinNl_head? {l : Str} {ls : List Str} (h : l ≠ []) :
    (joinNl (l :: ls)).head? = l.head? := by
  cases ls with
  | nil => rfl
  | cons l2 ls2 =>
    rw [joinNl_cons_cons]
    cases l with
    | nil => exact absurd rfl h
    | cons c cs => rfl

theorem joinNl_getLast_char {ys : List Str} {z : Str} (hys : ys ≠ []) (hz : z ≠ []) :
    (joinNl (ys ++ [z])).getLast? = z.getLast? := by
  rw [joinNl_append_singleton ys z hys]
  have h1 : joinNl ys ++ nl :: z = (joinNl ys ++ [nl]) ++ z := by simp
  rw [h1, List.getLast?_append]
  cases hz2 : z.getLast? with
  | none => exact absurd (List.getLast?_eq_none_iff.1 hz2) hz
  | some c => rfl

end SmartChangelog

/-! ## Facts extracted from the well-formedness predicates -/

namespace SmartChangelog

theorem entryOk_facts {e : Str} (h : entryOk e = true) :
    blankLine e = false ∧ rstrip e = e ∧ (str "###").isPrefixOf e = false ∧
    (∀ k, containsSub e (startMarker k) = false ∧ containsSub e (endMarker k) = false) ∧
    nl ∉ e := by
  simp only [entryOk, Bool.and_eq_true, Bool.not_eq_true', beq_iff_eq,
    decide_eq_false_iff_not] at h
  obtain ⟨⟨⟨⟨⟨⟨⟨⟨⟨h1, h2⟩, h3⟩, h4⟩, h5⟩, h6⟩, h7⟩, h8⟩, h9⟩, h10⟩ := h
  refine ⟨h1, h2, h3, ?_, h10⟩
  intro k
  cases k
  · exact ⟨h4, h5⟩
  · exact ⟨h6, h7⟩
  · exact ⟨h8, h9⟩

theorem versionOk_facts {v : Str} (h : versionOk v = true) :
    strip v = v ∧ nl ∉ v ∧
    containsSub (str "## " ++ v) lastUpdatedLit = false ∧
    (∀ k, containsSub (str "## " ++ v) (startMarker k) = false ∧
      containsSub (str "## " ++ v) (endMarker k) = false) := by
  simp only [versionOk, Bool.and_eq_true, Bool.not_eq_true', beq_iff_eq,
    decide_eq_false_iff_not] at h
  obtain ⟨⟨⟨⟨⟨⟨⟨⟨h1, h2⟩, h3⟩, h4⟩, h5⟩, h6⟩, h7⟩, h8⟩, h9⟩ := h
  refine ⟨h1, h2, h3, ?_⟩
  intro k
  cases k
  · exact ⟨h4, h5⟩
  · exact ⟨h6, h7⟩
  · exact ⟨h8, h9⟩

theorem parseDateAt_inv {s d r : Str} (h : parseDateAt s = some (d, r)) :
    s = d ++ r ∧ ∃ a b c e f g i j : Char,
      d = [a, b, c, e, '-', f, g, '-', i, j] ∧
      (a.isDigit && b.isDigit && c.isDigit && e.isDigit &&
       f.isDigit && g.isDigit && i.isDigit && j.isDigit) = true := by
  unfold parseDateAt at h
  split at h
  · next a b c e f g i j rest =>
    split at h
    · next hdig =>
      simp only [Option.some.injEq, Prod.mk.injEq] at h
      obtain ⟨hd, hr⟩ := h
      subst hd
      subst hr
      exact ⟨by simp, a, b, c, e, f, g, i, j, rfl, by
        simp only [Bool.and_eq_true] at hdig
        obtain ⟨⟨⟨⟨⟨⟨⟨h1, h2⟩, h3⟩, h4⟩, h5⟩, h6⟩, h7⟩, h8⟩ := hdig
        simp [h1, h2, h3, h4, h5, h6, h7, h8]⟩
    · exact absurd h (by simp)
  · next => exact absurd h (by simp)

theorem validDate_parse {d : Str} (h : validDate d = true) :
    parseDateAt d = some (d, []) := by
  unfold validDate at h
  cases hp : parseDateAt d with
  | none => rw [hp] at h; exact absurd h (by simp)
  | some pr =>
    obtain ⟨d2, r⟩ := pr
    rw [hp] at h
    have hr : r = [] := by simpa [List.isEmpty_iff] using h
    subst hr
    obtain ⟨hs, _⟩ := parseDateAt_inv hp
    rw [List.append_nil] at hs
    rw [hs]

theorem validDate_append {d w : Str} (h : validDate d = true) :
    parseDateAt (d ++ w) = some (d, w) := by
  obtain ⟨_, a, b, c, e, f, g, i, j, hshape, hdig⟩ := parseDateAt_inv (validDate_parse h)
  subst hshape
  simp only [List.cons_append, List.nil_append]
  simp only [parseDateAt]
  rw [if_pos]
  simpa using hdig

theorem validDate_chars {d : Str} (h : validDate d = true) :
    ∀ c ∈ d, c.isDigit = true ∨ c = '-' := by
  obtain ⟨_, a, b, c, e, f, g, i, j, hshape, hdig⟩ := parseDateAt_inv (validDate_parse h)
  subst hshape
  simp only [Bool.and_eq_true] at hdig
  obtain ⟨⟨⟨⟨⟨⟨⟨h1, h2⟩, h3⟩, h4⟩, h5⟩, h6⟩, h7⟩, h8⟩ := hdig
  intro c0 hc0
  simp only [List.mem_cons, List.not_mem_nil, or_false] at hc0
  rcases hc0 with rfl|rfl|rfl|rfl|rfl|rfl|rfl|rfl|rfl|rfl
  · exact Or.inl h1
  · exact Or.inl h2
  · exact Or.inl h3
  · exact Or.inl h4
  · exact Or.inr rfl
  · exact Or.inl h5
  · exact Or.inl h6
  · exact Or.inr rfl
  · exact Or.inl h7
  · exact Or.inl h8

theorem validDate_head {d : Str} (h : validDate d = true) :
    ∃ c0 rest0, d = c0 :: rest0 ∧ c0.isDigit = true := by
  obtain ⟨_, a, b, c, e, f, g, i, j, hshape, hdig⟩ := parseDateAt_inv (validDate_parse h)
  subst hshape
  simp only [Bool.and_eq_true] at hdig
  exact ⟨a, _, rfl, hdig.1.1.1.1.1.1.1⟩

theorem digit_or_dash_ne {c : Char} (h : c.isDigit = true ∨ c = '-') :
    c ≠ nl ∧ c ≠ '<' ∧ c ≠ '_' ∧ isSpaceChar c = false := by
  rcases h with h | rfl
  · refine ⟨?_, ?_, ?_, ?_⟩
    · intro h2; rw [h2] at h; exact absurd h (by decide)
    · intro h2; rw [h2] at h; exact absurd h (by decide)
    · intro h2; rw [h2] at h; exact absurd h (by decide)
    · cases hs : isSpaceChar c
      · rfl
      · exfalso
        have h3 : c = ' ' ∨ c = '\t' ∨ c = '\n' ∨ c = '\r' ∨ c = '\x0b' ∨ c = '\x0c' := by
          simpa [isSpaceChar, Bool.or_eq_true, decide_eq_true_eq, or_assoc] using hs
        rcases h3 with rfl|rfl|rfl|rfl|rfl|rfl <;> exact absurd h (by decide)
  · exact ⟨by decide, by decide, by decide, by decide⟩

end SmartChangelog

/-! ## Normalisation and line recovery for rendered blocks -/

namespace SmartChangelog

theorem sectCore_mem {k : SectionKey} {e : List Str} {l : Str} (hl : l ∈ sectCore k e) :
    l = startMarker k ∨ l = endMarker k ∨ l = sectionHeading k ∨ l = [] ∨ l ∈ e := by
  by_cases he : e.isEmpty
  · simp only [sectCore, he, if_pos, List.mem_append, List.mem_singleton,
      List.not_mem_nil, or_false] at hl
    tauto
  · have he2 : e.isEmpty = false := by simpa using he
    simp only [sectCore, he2, Bool.false_eq_true, if_false, List.mem_append,
      List.mem_singleton, List.mem_cons, List.not_mem_nil, or_false] at hl
    tauto

theorem coreList_mem {v d : Str} {s : Sections} {l : Str}
    (hl : l ∈ coreList v d s) :
    l = str "## " ++ v ∨ l = str "_Last updated: " ++ d ++ str "_" ∨ l = [] ∨
    ∃ k, l ∈ sectCore k (s.get k) := by
  simp only [coreList, List.mem_append, List.mem_cons, List.not_mem_nil, or_false,
    List.mem_singleton] at hl
  rcases hl with ((((h | h) | h) | h) | h) | h
  · rcases h with h | h | h
    · exact Or.inl h
    · exact Or.inr (Or.inl h)
    · exact Or.inr (Or.inr (Or.inl h))
  · exact Or.inr (Or.inr (Or.inr ⟨.feature, h⟩))
  · exact Or.inr (Or.inr (Or.inl h))
  · exact Or.inr (Or.inr (Or.inr ⟨.fix, h⟩))
  · exact Or.inr (Or.inr (Or.inl h))
  · exact Or.inr (Or.inr (Or.inr ⟨.change, h⟩))

theorem coreList_no_nl (v d : Str) (s : Sections)
    (hv : nl ∉ v) (hd : nl ∉ d)
    (hs : ∀ k, ∀ e ∈ s.get k, nl ∉ e) :
    ∀ l ∈ coreList v d s, nl ∉ l := by
  intro l hl
  rcases coreList_mem hl with h | h | h | ⟨k, h⟩
  · subst h
    intro hmem
    rcases List.mem_append.1 hmem with h1 | h1
    · exact absurd h1 (by decide)
    · exact hv h1
  · subst h
    intro hmem
    rcases List.mem_append.1 hmem with h1 | h1
    · rcases List.mem_append.1 h1 with h2 | h2
      · exact absurd h2 (by decide)
      · exact hd h2
    · exact absurd h1 (by decide)
  · subst h
    simp
  · rcases sectCore_mem h with h1 | h1 | h1 | h1 | h1
    · subst h1; cases k <;> decide
    · subst h1; cases k <;> decide
    · subst h1; cases k <;> decide
    · subst h1; simp
    · exact hs k l h1

theorem coreJoin_head (v d : Str) (s : Sections) :
    (joinNl (coreList v d s)).head? = some '#' := by
  have htl : ∃ tl, coreList v d s = (str "## " ++ v) :: tl := ⟨_, rfl⟩
  obtain ⟨tl, htl⟩ := htl
  rw [htl, joinNl_head? (by simp [str])]
  rfl

theorem coreJoin_last (v d : Str) (s : Sections) :
    (joinNl (coreList v d s)).getLast? = some '>' := by
  obtain ⟨Y, hY0, hY⟩ := coreList_eq_append v d s
  rw [hY, joinNl_getLast_char hY0 (by decide)]
  decide

theorem normalise_render (v d : Str) (s : Sections) :
    renderVersionBlock v d s = renderVersionBlockFallback v d s := by
  rw [renderVersionBlock, renderFallback_flat,
    joinNl_eq_linesFlat_dropLastNl _ (coreList_ne_nil v d s), normaliseBlock,
    stripNl_append_nl]
  · intro c hc
    rw [coreJoin_head v d s] at hc
    have h2 : c = '#' := by simpa [eq_comm] using hc
    subst h2
    decide
  · intro c hc
    rw [coreJoin_last v d s] at hc
    have h2 : c = '>' := by simpa [eq_comm] using hc
    subst h2
    decide

theorem strip_coreJoin (v d : Str) (s : Sections) (t : Str) (ht : t = [] ∨ t = [nl]) :
    strip (joinNl (coreList v d s) ++ t) = joinNl (coreList v d s) := by
  have hh : ∀ c, (joinNl (coreList v d s)).head? = some c → isSpaceChar c = false := by
    intro c hc
    rw [coreJoin_head v d s] at hc
    have h2 : c = '#' := by simpa [eq_comm] using hc
    subst h2
    decide
  have hl : ∀ c, (joinNl (coreList v d s)).getLast? = some c → isSpaceChar c = false := by
    intro c hc
    rw [coreJoin_last v d s] at hc
    have h2 : c = '>' := by simpa [eq_comm] using hc
    subst h2
    decide
  rcases ht with rfl | rfl
  · rw [List.append_nil, strip, rstrip_of_getLast? hl, lstrip_eq_self_of_head? hh]
  · rw [strip, rstrip_append_nl hl, lstrip_eq_self_of_head? hh]

theorem splitlines_coreJoin (v d : Str) (s : Sections)
    (hnl : ∀ l ∈ coreList v d s, nl ∉ l) :
    splitlines (joinNl (coreList v d s)) = coreList v d s := by
  have h1 : splitAll (joinNl (coreList v d s)) = coreList v d s :=
    splitAll_joinNl (coreList_ne_nil v d s) hnl
  rw [splitlines]
  simp only [h1]
  rw [if_neg]
  obtain ⟨Y, hY0, hY⟩ := coreList_eq_append v d s
  rw [hY, List.getLast?_concat]
  intro hcon
  have h2 : endMarker .change = [] := by simpa using hcon
  exact absurd h2 (by decide)

end SmartChangelog

/-! ## Locating the last-updated date in a rendered block -/

namespace SmartChangelog

theorem lastUpdatedMatchAt_none_of_no_lit {s : Str}
    (h : lastUpdatedLit.isPrefixOf s = false) : lastUpdatedMatchAt s = none := by
  rw [lastUpdatedMatchAt, if_neg (by simp [h])]

theorem isPrefixOf_eq_false_of_head {pat s : Str} {c c2 : Char}
    (hp : pat.head? = some c) (hs : s.head? = some c2) (hne : c ≠ c2) :
    pat.isPrefixOf s = false := by
  cases h : pat.isPrefixOf s
  · rfl
  · exfalso
    obtain ⟨t, ht⟩ := (List.isPrefixOf_iff_prefix).1 h
    apply hne
    have h2 := congrArg (fun l => l.head?) ht
    cases pat with
    | nil => simp at hp
    | cons p ps =>
      simp only [List.cons_append, List.head?_cons] at h2
      simp only [List.head?_cons] at hp
      rw [hs] at h2
      have hpc : p = c := by simpa [eq_comm] using hp
      have hpc2 : p = c2 := by simpa using h2
      rw [← hpc, hpc2]

theorem not_lit_prefix_of_line {l : Str} (_hnl : nl ∉ l)
    (hc : containsSub l lastUpdatedLit = false) (k : Nat) (_hk : k ≤ l.length) (z : Str) :
    ¬ lastUpdatedLit <+: (l.drop k ++ nl :: z) := by
  intro hcon
  rcases prefix_append_cases hcon with h1 | ⟨h1, h2⟩
  · apply containsSub_eq_false_iff.1 hc
    exact List.IsInfix.trans (List.IsPrefix.isInfix h1) ⟨l.take k, [], by simp⟩
  · by_cases hlen : lastUpdatedLit.length ≤ (l.drop k).length
    · have he : l.drop k = lastUpdatedLit := List.IsPrefix.eq_of_length_le h1 hlen
      apply containsSub_eq_false_iff.1 hc
      rw [← he]
      exact ⟨l.take k, [], by simp⟩
    · have hlitlen : lastUpdatedLit.length = 14 := rfl
      rw [hlitlen] at hlen
      have hne : lastUpdatedLit.drop (l.drop k).length ≠ [] := by
        intro hcon2
        have h4 := congrArg List.length hcon2
        rw [List.length_drop, hlitlen] at h4
        simp only [List.length_nil] at h4
        omega
      have hmem : nl ∈ lastUpdatedLit := by
        rcases List.prefix_cons_iff.1 h2 with h3 | ⟨t3, h3, _⟩
        · exact absurd h3 hne
        · have : nl ∈ lastUpdatedLit.drop (l.drop k).length := by
            rw [h3]
            simp
          exact List.drop_subset _ _ this
      exact absurd hmem (by decide)

theorem containsSub_cons_false {c : Char} {cs pat : Str}
    (h : containsSub (c :: cs) pat = false) :
    pat.isPrefixOf (c :: cs) = false ∧ containsSub cs pat = false := by
  rw [containsSub, Bool.or_eq_false_iff] at h
  exact h

theorem searchLU_line_skip : ∀ {l : Str}, nl ∉ l →
    containsSub l lastUpdatedLit = false → ∀ (z : Str),
    searchLastUpdated (l ++ nl :: z) = searchLastUpdated z := by
  intro l
  induction l with
  | nil =>
    intro _ _ z
    rw [List.nil_append, searchLastUpdated,
      lastUpdatedMatchAt_none_of_no_lit
        (@isPrefixOf_eq_false_of_head lastUpdatedLit (nl :: z)
          '_' nl rfl rfl (by decide))]
  | cons c cs ih =>
    intro hnl hc z
    have hfacts := containsSub_cons_false hc
    have hnp : lastUpdatedLit.isPrefixOf ((c :: cs) ++ nl :: z) = false := by
      cases hp : lastUpdatedLit.isPrefixOf ((c :: cs) ++ nl :: z)
      · rfl
      · exfalso
        exact not_lit_prefix_of_line hnl hc 0 (by omega) z
          (by simpa using (List.isPrefixOf_iff_prefix).1 hp)
    rw [List.cons_append, searchLastUpdated,
      lastUpdatedMatchAt_none_of_no_lit (by simpa using hnp)]
    exact ih (fun hm => hnl (List.mem_cons_of_mem c hm)) hfacts.2 z

theorem searchLU_lines_skip : ∀ {ls : List Str},
    (∀ l ∈ ls, nl ∉ l ∧ containsSub l lastUpdatedLit = false) → ∀ (t : Str),
    searchLastUpdated (linesFlat ls ++ t) = searchLastUpdated t := by
  intro ls
  induction ls with
  | nil => intro _ t; rfl
  | cons l ls ih =>
    intro h t
    rw [linesFlat_cons, List.append_assoc, List.cons_append,
      searchLU_line_skip (h l (by simp)).1 (h l (by simp)).2,
      ih (fun x hx => h x (List.mem_cons_of_mem l hx))]

theorem searchLU_single : ∀ {l : Str}, containsSub l lastUpdatedLit = false →
    searchLastUpdated l = none := by
  intro l
  induction l with
  | nil => intro _; rfl
  | cons c cs ih =>
    intro hc
    have hfacts := containsSub_cons_false hc
    rw [searchLastUpdated, lastUpdatedMatchAt_none_of_no_lit hfacts.1]
    exact ih hfacts.2

end SmartChangelog

/-! ## The date search on a rendered block -/

namespace SmartChangelog

/-- The non-heading lines of a rendered block. -/
def restLines (s : Sections) : List Str :=
  sectCore .feature s.feature ++ [[]] ++ sectCore .fix s.fix ++ [[]] ++
    sectCore .change s.change

theorem coreList_split (v d : Str) (s : Sections) :
    coreList v d s =
      [str "## " ++ v, str "_Last updated: " ++ d ++ str "_", []] ++ restLines s := by
  simp [coreList, restLines, List.append_assoc]

theorem restLines_mem {s : Sections} {l : Str} (hl : l ∈ restLines s) :
    l = [] ∨ ∃ k, l ∈ sectCore k (s.get k) := by
  simp only [restLines, List.mem_append, List.mem_singleton] at hl
  rcases hl with (((h | h) | h) | h) | h
  · exact Or.inr ⟨.feature, h⟩
  · exact Or.inl h
  · exact Or.inr ⟨.fix, h⟩
  · exact Or.inl h
  · exact Or.inr ⟨.change, h⟩

theorem restLines_ne_nil (s : Sections) : restLines s ≠ [] := by
  simp [restLines, sectCore]

theorem sectCore_line_facts {k : SectionKey} {e : List Str} {l : Str}
    (hok : ∀ x ∈ e, entryOk x = true) (hlit : ∀ x ∈ e, containsSub x lastUpdatedLit = false)
    (hl : l ∈ sectCore k e) :
    nl ∉ l ∧ containsSub l lastUpdatedLit = false := by
  rcases sectCore_mem hl with h | h | h | h | h
  · subst h; cases k <;> exact ⟨by decide, by decide⟩
  · subst h; cases k <;> exact ⟨by decide, by decide⟩
  · subst h; cases k <;> exact ⟨by decide, by decide⟩
  · subst h; exact ⟨by simp, by decide⟩
  · exact ⟨(entryOk_facts (hok l h)).2.2.2.2, hlit l h⟩

theorem block_decomp (v d : Str) (s : Sections) (t : Str) :
    joinNl (coreList v d s) ++ t =
      (str "## " ++ v) ++ nl ::
        ((str "_Last updated: " ++ d ++ str "_") ++ nl ::
          (joinNl ([] :: restLines s) ++ t)) := by
  rw [coreList_split]
  have h1 : [str "## " ++ v, str "_Last updated: " ++ d ++ str "_", []] ++ restLines s =
      (str "## " ++ v) :: (str "_Last updated: " ++ d ++ str "_") :: [] :: restLines s := by
    simp
  rw [h1]
  cases hrl : restLines s with
  | nil => exact absurd hrl (restLines_ne_nil s)
  | cons r rs =>
    rw [joinNl_cons_cons, joinNl_cons_cons]
    simp [List.append_assoc]

theorem l0_facts {v : Str} (hv : versionOk v = true) :
    nl ∉ (str "## " ++ v) ∧ containsSub (str "## " ++ v) lastUpdatedLit = false := by
  obtain ⟨_, hvnl, hvlit, _⟩ := versionOk_facts hv
  refine ⟨?_, hvlit⟩
  intro hmem
  rcases List.mem_append.1 hmem with h1 | h1
  · exact absurd h1 (by decide)
  · exact hvnl h1

theorem dropWhile_space_on_date {d w : Str} (hd : validDate d = true) :
    (d ++ w).dropWhile isSpaceChar = d ++ w := by
  obtain ⟨c0, rest0, hshape, hdig⟩ := validDate_head hd
  subst hshape
  rw [List.cons_append, List.dropWhile_cons_of_neg]
  simp [(digit_or_dash_ne (Or.inl hdig)).2.2.2]

theorem lastUpdatedMatchAt_date_line {d z : Str} (hd : validDate d = true) :
    lastUpdatedMatchAt (str "_Last updated: " ++ d ++ ('_' :: z)) =
      some ([' '], d, z) := by
  have hsplit : str "_Last updated: " ++ d ++ ('_' :: z) =
      lastUpdatedLit ++ (' ' :: (d ++ '_' :: z)) := by
    simp [lastUpdatedLit, str]
  rw [hsplit, lastUpdatedMatchAt, if_pos]
  · simp only [List.drop_left]
    rw [List.dropWhile_cons_of_pos (by decide)]
    rw [show (d ++ '_' :: z).dropWhile isSpaceChar = d ++ '_' :: z from
      dropWhile_space_on_date hd]
    rw [validDate_append hd]
    obtain ⟨c0, rest0, hshape, hdig⟩ := validDate_head hd
    have htw : (' ' :: (d ++ '_' :: z)).takeWhile isSpaceChar = [' '] := by
      rw [List.takeWhile_cons_of_pos (by decide)]
      subst hshape
      rw [List.cons_append, List.takeWhile_cons_of_neg]
      simp [(digit_or_dash_ne (Or.inl hdig)).2.2.2]
    rw [htw]
    rfl
  · rw [List.isPrefixOf_iff_prefix]
    exact List.prefix_append _ _

theorem searchLU_at_date_line {d z : Str} (hd : validDate d = true) :
    searchLastUpdated (str "_Last updated: " ++ d ++ ('_' :: z)) = some d := by
  have hm := lastUpdatedMatchAt_date_line (z := z) hd
  have hcons : str "_Last updated: " ++ d ++ ('_' :: z) =
      '_' :: (str "Last updated: " ++ d ++ ('_' :: z)) := by
    simp [str]
  rw [hcons] at hm ⊢
  rw [searchLastUpdated, hm]

theorem searchLU_block_valid (v d : Str) (s : Sections) (t : Str)
    (hv : versionOk v = true) (hd : validDate d = true) :
    searchLastUpdated (joinNl (coreList v d s) ++ t) = some d := by
  obtain ⟨hl0nl, hl0lit⟩ := l0_facts hv
  rw [block_decomp, searchLU_line_skip hl0nl hl0lit]
  have hshape : (str "_Last updated: " ++ d ++ str "_") ++ nl ::
      (joinNl ([] :: restLines s) ++ t) =
      str "_Last updated: " ++ d ++ ('_' :: nl :: (joinNl ([] :: restLines s) ++ t)) := by
    simp [str, List.append_assoc]
  rw [hshape]
  exact searchLU_at_date_line hd

end SmartChangelog

namespace SmartChangelog

theorem lastUpdatedMatchAt_empty_date {z : Str} :
    lastUpdatedMatchAt (str "_Last updated: " ++ ('_' :: z)) = none := by
  have hsplit : str "_Last updated: " ++ ('_' :: z) =
      lastUpdatedLit ++ (' ' :: '_' :: z) := by
    simp [lastUpdatedLit, str]
  rw [hsplit, lastUpdatedMatchAt, if_pos]
  · simp only [List.drop_left]
    rw [List.dropWhile_cons_of_pos (by decide), List.dropWhile_cons_of_neg (by decide)]
    have hpd : parseDateAt ('_' :: z) = none := by
      cases hp : parseDateAt ('_' :: z) with
      | none => rfl
      | some pr =>
        obtain ⟨d2, r2⟩ := pr
        obtain ⟨hs, a, b, c, e, f, g, i, j, hshape, hdig⟩ := parseDateAt_inv hp
        subst hshape
        have ha : a = '_' := by
          have h2 := congrArg (fun l => l.head?) hs
          simpa [eq_comm] using h2
        subst ha
        simp only [Bool.and_eq_true] at hdig
        exact absurd hdig.1.1.1.1.1.1.1 (by decide)
    rw [hpd]
  · rw [List.isPrefixOf_iff_prefix]
    exact List.prefix_append _ _

theorem restLines_eq_append (s : Sections) :
    ∃ Y, restLines s = Y ++ [endMarker .change] ∧ ∀ l ∈ Y, l ∈ restLines s := by
  obtain ⟨Y, hY⟩ := sectCore_eq_append .change s.change
  refine ⟨sectCore .feature s.feature ++ [[]] ++ sectCore .fix s.fix ++ [[]] ++ Y,
    ?_, ?_⟩
  · rw [restLines, hY]
    simp [List.append_assoc]
  · intro l hl
    have h2 : restLines s =
        (sectCore .feature s.feature ++ [[]] ++ sectCore .fix s.fix ++ [[]] ++ Y) ++
          [endMarker .change] := by
      rw [restLines, hY]
      simp [List.append_assoc]
    rw [h2]
    exact List.mem_append_left _ hl

theorem searchLU_block_empty (v : Str) (s : Sections) (t : Str)
    (hv : versionOk v = true) (ht : t = [] ∨ t = [nl])
    (hok : ∀ k, ∀ e ∈ s.get k, entryOk e = true)
    (hlit : ∀ k, ∀ e ∈ s.get k, containsSub e lastUpdatedLit = false) :
    searchLastUpdated (joinNl (coreList v [] s) ++ t) = none := by
  obtain ⟨hl0nl, hl0lit⟩ := l0_facts hv
  rw [block_decomp, searchLU_line_skip hl0nl hl0lit]
  have hshape : (str "_Last updated: " ++ ([] : Str) ++ str "_") ++ nl ::
      (joinNl ([] :: restLines s) ++ t) =
      '_' :: (str "Last updated: " ++ ('_' :: nl :: (joinNl ([] :: restLines s) ++ t))) := by
    simp [str]
  rw [hshape, searchLastUpdated]
  have hm : lastUpdatedMatchAt
      ('_' :: (str "Last updated: " ++ ('_' :: nl :: (joinNl ([] :: restLines s) ++ t)))) =
      none := by
    have h2 : '_' :: (str "Last updated: " ++
        ('_' :: nl :: (joinNl ([] :: restLines s) ++ t))) =
        str "_Last updated: " ++ ('_' :: (nl :: (joinNl ([] :: restLines s) ++ t))) := by
      simp [str]
    rw [h2]
    exact lastUpdatedMatchAt_empty_date
  rw [hm]
  have hshape2 : str "Last updated: " ++ ('_' :: nl :: (joinNl ([] :: restLines s) ++ t)) =
      (str "Last updated: _") ++ nl :: (joinNl ([] :: restLines s) ++ t) := by
    simp [str]
  rw [hshape2, searchLU_line_skip (by decide) (by decide)]
  have hlines : ∀ l ∈ ([] :: restLines s), nl ∉ l ∧
      containsSub l lastUpdatedLit = false := by
    intro l hl
    rcases List.mem_cons.1 hl with rfl | hl2
    · exact ⟨by simp, by decide⟩
    · rcases restLines_mem hl2 with rfl | ⟨k, hk⟩
      · exact ⟨by simp, by decide⟩
      · exact sectCore_line_facts (hok k) (hlit k) hk
  rcases ht with rfl | rfl
  · obtain ⟨Y, hY, hYmem⟩ := restLines_eq_append s
    rw [List.append_nil, hY]
    have h3 : ([] :: (Y ++ [endMarker .change])) = ([] :: Y) ++ [endMarker .change] := by
      simp
    rw [h3, joinNl_append_singleton _ _ (by simp)]
    have h4 : joinNl ([] :: Y) ++ nl :: endMarker .change =
        linesFlat ([] :: Y) ++ endMarker .change := by
      rw [joinNl_eq_linesFlat_dropLastNl _ (by simp)]
      simp
    rw [h4, searchLU_lines_skip]
    · exact searchLU_single (by decide)
    · intro l hl
      rcases List.mem_cons.1 hl with rfl | hl2
      · exact ⟨by simp, by decide⟩
      · exact hlines l (List.mem_cons_of_mem _ (hY ▸ List.mem_append_left _ hl2))
  · rw [← joinNl_eq_linesFlat_dropLastNl _ (by simp : ([] :: restLines s) ≠ [])]
    have h5 := searchLU_lines_skip hlines []
    simpa using h5

end SmartChangelog
namespace SmartChangelog

/-- C5: if a block with the version heading already exists the document comes
back unchanged with `created = false`; in every synthesis path the flag is
`true`; and the bootstrap scenario (`"# Changelog\n"`, version `1.5`, date
`2025-02-02`) creates a block containing `## 1.5` and the date stamp. -/
theorem ensureVersionBlock_contract :
    (∀ content heading dateStr : Str, (findVersionBlock content heading).isSome = true →
      ensureVersionBlock content heading dateStr = (content, false)) ∧
    (∀ content heading dateStr : Str, findVersionBlock content heading = none →
      (ensureVersionBlock content heading dateStr).2 = true) ∧
    ((ensureVersionBlock (str "# Changelog\n") (str "## 1.5") (str "2025-02-02")).2 = true ∧
     containsSub (ensureVersionBlock (str "# Changelog\n") (str "## 1.5")
       (str "2025-02-02")).1 (str "## 1.5") = true ∧
     containsSub (ensureVersionBlock (str "# Changelog\n") (str "## 1.5")
       (str "2025-02-02")).1 (str "_Last updated: 2025-02-02_") = true) := by
  refine ⟨?_, ?_, by decide⟩
  · intro content heading dateStr h
    rw [ensureVersionBlock, if_pos (by simp [h])]
  · intro content heading dateStr h
    rw [ensureVersionBlock, if_neg (by simp [h])]
    cases hfu : findUnreleased content with
    | some p =>
      obtain ⟨ui, uj⟩ := p
      rfl
    | none =>
      dsimp only
      split
      · rfl
      · rfl

/-- C5 witness. -/
theorem ensureVersionBlock_contract_witness :
    ensureVersionBlock (str "x\n## 1.5\nbody") (str "## 1.5") (str "d") =
      (str "x\n## 1.5\nbody", false) ∧
    (ensureVersionBlock (str "hello") (str "## 2.0") (str "d")).2 = true :=
  ⟨ensureVersionBlock_contract.1 _ _ _ (by decide),
   ensureVersionBlock_contract.2.1 _ _ _ (by decide)⟩

end SmartChangelog

/-! ## Marker positions inside a rendered block -/

namespace SmartChangelog

/-- The lines a section contributes strictly between its two markers. -/
def midLines (k : SectionKey) (e : List Str) : List Str :=
  if e.isEmpty then [] else [sectionHeading k, []] ++ e ++ [[]]

theorem sectCore_eq_mid (k : SectionKey) (e : List Str) :
    sectCore k e = [startMarker k] ++ midLines k e ++ [endMarker k] := by
  rw [sectCore, midLines]

theorem midLines_mem {k : SectionKey} {e : List Str} {l : Str}
    (hl : l ∈ midLines k e) : l = sectionHeading k ∨ l = [] ∨ l ∈ e := by
  by_cases he : e.isEmpty
  · rw [midLines, if_pos he] at hl
    exact absurd hl (List.not_mem_nil l)
  · rw [midLines, if_neg he] at hl
    simp only [List.cons_append, List.mem_cons, List.mem_append,
      List.mem_singleton, List.not_mem_nil] at hl
    tauto

theorem joinNl_append_left (P R : List Str) (hR : R ≠ []) :
    joinNl (P ++ R) = linesFlat P ++ joinNl R := by
  induction P with
  | nil => simp [linesFlat_nil]
  | cons p P ih =>
    have h1 : ∃ x xs, P ++ R = x :: xs := by
      cases hPR : P ++ R with
      | nil =>
        rcases List.append_eq_nil.1 hPR with ⟨_, h2⟩
        exact absurd h2 hR
      | cons x xs => exact ⟨x, xs, rfl⟩
    obtain ⟨x, xs, hx⟩ := h1
    rw [List.cons_append, hx, joinNl_cons_cons, ← hx, ih, linesFlat_cons]
    simp [List.append_assoc]

theorem joinNl_cons_ne (l : Str) (ls : List Str) (h : ls ≠ []) :
    joinNl (l :: ls) = l ++ nl :: joinNl ls := by
  cases ls with
  | nil => exact absurd rfl h
  | cons x xs => exact joinNl_cons_cons l x xs

/-- The lines of a rendered block that precede a section's start marker. -/
def blkPS (v d : Str) (s : Sections) : SectionKey → List Str
  | .feature => [str "## " ++ v, str "_Last updated: " ++ d ++ str "_", []]
  | .fix => [str "## " ++ v, str "_Last updated: " ++ d ++ str "_", []] ++
      sectCore .feature s.feature ++ [[]]
  | .change => [str "## " ++ v, str "_Last updated: " ++ d ++ str "_", []] ++
      sectCore .feature s.feature ++ [[]] ++ sectCore .fix s.fix ++ [[]]

/-- The lines of a rendered block that follow a section's end marker. -/
def blkQE (s : Sections) : SectionKey → List Str
  | .feature => [[]] ++ sectCore .fix s.fix ++ [[]] ++ sectCore .change s.change
  | .fix => [[]] ++ sectCore .change s.change
  | .change => []

theorem coreList_marker_split (v d : Str) (s : Sections) (k : SectionKey) :
    coreList v d s = blkPS v d s k ++ [startMarker k] ++
      (midLines k (s.get k) ++ [endMarker k] ++ blkQE s k) := by
  cases k <;>
    simp [coreList, blkPS, blkQE, Sections.get, sectCore_eq_mid, List.append_assoc]

theorem blkPS_ne_nil (v d : Str) (s : Sections) (k : SectionKey) :
    blkPS v d s k ≠ [] := by
  cases k <;> simp [blkPS]

theorem blkPS_mem {v d : Str} {s : Sections} {k : SectionKey} {l : Str}
    (hl : l ∈ blkPS v d s k) :
    l = str "## " ++ v ∨ l = str "_Last updated: " ++ d ++ str "_" ∨ l = [] ∨
    ∃ k2, k2 ≠ k ∧ l ∈ sectCore k2 (s.get k2) := by
  cases k with
  | feature =>
    simp only [blkPS, List.mem_cons, List.not_mem_nil, or_false] at hl
    rcases hl with rfl | rfl | rfl
    · exact Or.inl rfl
    · exact Or.inr (Or.inl rfl)
    · exact Or.inr (Or.inr (Or.inl rfl))
  | fix =>
    simp only [blkPS, List.mem_append, List.mem_cons, List.mem_singleton,
      List.not_mem_nil, or_false] at hl
    rcases hl with ((rfl | rfl | rfl) | h) | rfl
    · exact Or.inl rfl
    · exact Or.inr (Or.inl rfl)
    · exact Or.inr (Or.inr (Or.inl rfl))
    · exact Or.inr (Or.inr (Or.inr ⟨.feature, by decide, h⟩))
    · exact Or.inr (Or.inr (Or.inl rfl))
  | change =>
    simp only [blkPS, List.mem_append, List.mem_cons, List.mem_singleton,
      List.not_mem_nil, or_false] at hl
    rcases hl with ((((rfl | rfl | rfl) | h) | rfl) | h) | rfl
    · exact Or.inl rfl
    · exact Or.inr (Or.inl rfl)
    · exact Or.inr (Or.inr (Or.inl rfl))
    · exact Or.inr (Or.inr (Or.inr ⟨.feature, by decide, h⟩))
    · exact Or.inr (Or.inr (Or.inl rfl))
    · exact Or.inr (Or.inr (Or.inr ⟨.fix, by decide, h⟩))
    · exact Or.inr (Or.inr (Or.inl rfl))

end SmartChangelog

namespace SmartChangelog

theorem not_infix_of_mem_char {m l : Str} {c : Char} (hc : c ∈ m) (hl : c ∉ l) :
    ¬ m <:+: l := fun h => hl (h.subset hc)

theorem marker_cross_facts : ∀ k k2 : SectionKey,
    (k ≠ k2 → containsSub (startMarker k2) (startMarker k) = false) ∧
    containsSub (endMarker k2) (startMarker k) = false ∧
    containsSub (sectionHeading k2) (startMarker k) = false ∧
    containsSub (startMarker k2) (endMarker k) = false ∧
    (k ≠ k2 → containsSub (endMarker k2) (endMarker k) = false) ∧
    containsSub (sectionHeading k2) (endMarker k) = false := by
  intro k k2
  cases k <;> cases k2 <;> decide

theorem lt_mem_startMarker (k : SectionKey) : '<' ∈ startMarker k := by
  cases k <;> decide

theorem lt_mem_endMarker (k : SectionKey) : '<' ∈ endMarker k := by
  cases k <;> decide

theorem dateline_no_lt {d : Str} (hd : validDate d = true) :
    '<' ∉ (str "_Last updated: " ++ d ++ str "_") := by
  intro hmem
  rcases List.mem_append.1 hmem with h1 | h1
  · rcases List.mem_append.1 h1 with h2 | h2
    · exact absurd h2 (by decide)
    · rcases validDate_chars hd _ h2 with h3 | h3
      · exact absurd h3 (by decide)
      · exact absurd h3 (by decide)
  · exact absurd h1 (by decide)

theorem startMarker_ne_nil (k : SectionKey) : startMarker k ≠ [] := by
  cases k <;> decide

theorem endMarker_ne_nil (k : SectionKey) : endMarker k ≠ [] := by
  cases k <;> decide

theorem nl_not_mem_startMarker (k : SectionKey) : nl ∉ startMarker k := by
  cases k <;> decide

theorem nl_not_mem_endMarker (k : SectionKey) : nl ∉ endMarker k := by
  cases k <;> decide

theorem blkPS_no_start {v d : Str} {s : Sections}
    (hv : versionOk v = true) (hd : validDate d = true)
    (hok : ∀ k2, ∀ e ∈ s.get k2, entryOk e = true) (k : SectionKey) :
    ∀ l ∈ blkPS v d s k, ¬ startMarker k <:+: l := by
  intro l hl
  rcases blkPS_mem hl with rfl | rfl | rfl | ⟨k2, hne, hmem⟩
  · exact containsSub_eq_false_iff.1 ((versionOk_facts hv).2.2.2 k).1
  · exact not_infix_of_mem_char (lt_mem_startMarker k) (dateline_no_lt hd)
  · intro h
    exact startMarker_ne_nil k (List.infix_nil.1 h)
  · rcases sectCore_mem hmem with rfl | rfl | rfl | rfl | hmem2
    · exact containsSub_eq_false_iff.1 ((marker_cross_facts k k2).1 (Ne.symm hne))
    · exact containsSub_eq_false_iff.1 (marker_cross_facts k k2).2.1
    · exact containsSub_eq_false_iff.1 (marker_cross_facts k k2).2.2.1
    · intro h
      exact startMarker_ne_nil k (List.infix_nil.1 h)
    · exact containsSub_eq_false_iff.1 ((entryOk_facts (hok k2 l hmem2)).2.2.2.1 k).1

theorem blkPSM_no_end {v d : Str} {s : Sections}
    (hv : versionOk v = true) (hd : validDate d = true)
    (hok : ∀ k2, ∀ e ∈ s.get k2, entryOk e = true) (k : SectionKey) :
    ∀ l ∈ blkPS v d s k ++ [startMarker k] ++ midLines k (s.get k),
      ¬ endMarker k <:+: l := by
  intro l hl
  rcases List.mem_append.1 hl with hl1 | hl1
  · rcases List.mem_append.1 hl1 with hl2 | hl2
    · rcases blkPS_mem hl2 with rfl | rfl | rfl | ⟨k2, hne, hmem⟩
      · exact containsSub_eq_false_iff.1 ((versionOk_facts hv).2.2.2 k).2
      · exact not_infix_of_mem_char (lt_mem_endMarker k) (dateline_no_lt hd)
      · intro h
        exact endMarker_ne_nil k (List.infix_nil.1 h)
      · rcases sectCore_mem hmem with rfl | rfl | rfl | rfl | hmem2
        · exact containsSub_eq_false_iff.1 (marker_cross_facts k k2).2.2.2.1
        · exact containsSub_eq_false_iff.1
            ((marker_cross_facts k k2).2.2.2.2.1 (Ne.symm hne))
        · exact containsSub_eq_false_iff.1 (marker_cross_facts k k2).2.2.2.2.2
        · intro h
          exact endMarker_ne_nil k (List.infix_nil.1 h)
        · exact containsSub_eq_false_iff.1 ((entryOk_facts (hok k2 l hmem2)).2.2.2.1 k).2
    · rcases List.mem_singleton.1 hl2 with rfl
      exact containsSub_eq_false_iff.1 (marker_cross_facts k k).2.2.2.1
  · rcases midLines_mem hl1 with rfl | rfl | hmem
    · exact containsSub_eq_false_iff.1 (marker_cross_facts k k).2.2.2.2.2
    · intro h
      exact endMarker_ne_nil k (List.infix_nil.1 h)
    · exact containsSub_eq_false_iff.1 ((entryOk_facts (hok k l hmem)).2.2.2.1 k).2

theorem findSub_in_block {m : Str} (hm0 : m ≠ []) (hmnl : nl ∉ m)
    {P Q : List Str} (hP0 : P ≠ []) (hPno : ∀ l ∈ P, ¬ m <:+: l) (t : Str) :
    findSub (joinNl (P ++ [m] ++ Q) ++ t) m = some (linesFlat P).length := by
  rw [List.append_assoc, joinNl_append_left P ([m] ++ Q) (by simp)]
  cases Q with
  | nil =>
    have h1 : joinNl ([m] ++ ([] : List Str)) = m := rfl
    rw [h1, List.append_assoc]
    exact findSub_marker_pos hm0 hmnl hP0 hPno t
  | cons q qs =>
    have h1 : joinNl ([m] ++ (q :: qs)) = m ++ nl :: joinNl (q :: qs) := by
      rw [List.singleton_append]
      exact joinNl_cons_cons m q qs
    rw [h1]
    have h2 : (linesFlat P ++ (m ++ nl :: joinNl (q :: qs))) ++ t =
        linesFlat P ++ (m ++ (nl :: (joinNl (q :: qs) ++ t))) := by
      simp [List.append_assoc]
    rw [h2]
    exact findSub_marker_pos hm0 hmnl hP0 hPno _

theorem findSub_startMarker (v d : Str) (s : Sections) (t : Str)
    (hv : versionOk v = true) (hd : validDate d = true)
    (hok : ∀ k2, ∀ e ∈ s.get k2, entryOk e = true) (k : SectionKey) :
    findSub (joinNl (coreList v d s) ++ t) (startMarker k) =
      some (linesFlat (blkPS v d s k)).length := by
  rw [coreList_marker_split v d s k]
  exact findSub_in_block (startMarker_ne_nil k) (nl_not_mem_startMarker k)
    (blkPS_ne_nil v d s k) (blkPS_no_start hv hd hok k) t

theorem findSub_endMarker (v d : Str) (s : Sections) (t : Str)
    (hv : versionOk v = true) (hd : validDate d = true)
    (hok : ∀ k2, ∀ e ∈ s.get k2, entryOk e = true) (k : SectionKey) :
    findSub (joinNl (coreList v d s) ++ t) (endMarker k) =
      some (linesFlat (blkPS v d s k ++ [startMarker k] ++
        midLines k (s.get k))).length := by
  have hsplit : coreList v d s =
      (blkPS v d s k ++ [startMarker k] ++ midLines k (s.get k)) ++ [endMarker k] ++
        blkQE s k := by
    rw [coreList_marker_split v d s k]
    simp [List.append_assoc]
  rw [hsplit]
  exact findSub_in_block (endMarker_ne_nil k) (nl_not_mem_endMarker k)
    (by simp [blkPS_ne_nil v d s k]) (blkPSM_no_end hv hd hok k) t

end SmartChangelog

namespace SmartChangelog

theorem block_around_marker (v d : Str) (s : Sections) (t : Str) (k : SectionKey) :
    joinNl (coreList v d s) ++ t =
      (linesFlat (blkPS v d s k) ++ startMarker k) ++
        (nl :: linesFlat (midLines k (s.get k))) ++
        (joinNl (endMarker k :: blkQE s k) ++ t) := by
  rw [coreList_marker_split v d s k, List.append_assoc (blkPS v d s k),
    joinNl_append_left _ _ (by simp), List.singleton_append,
    joinNl_cons_ne _ _ (by simp),
    List.append_assoc (midLines k (s.get k)),
    joinNl_append_left _ _ (by simp), List.singleton_append]
  simp [List.append_assoc]

theorem midFlat_len (v d : Str) (s : Sections) (k : SectionKey) :
    (linesFlat (blkPS v d s k ++ [startMarker k] ++ midLines k (s.get k))).length =
      (linesFlat (blkPS v d s k)).length + (startMarker k).length + 1 +
        (linesFlat (midLines k (s.get k))).length := by
  rw [linesFlat_append, linesFlat_append]
  simp only [List.length_append, linesFlat_cons, linesFlat_nil, List.length_cons,
    List.length_nil]
  omega

theorem segment_slice (v d : Str) (s : Sections) (t : Str) (k : SectionKey) :
    ((joinNl (coreList v d s) ++ t).drop
        ((linesFlat (blkPS v d s k)).length + (startMarker k).length)).take
      ((linesFlat (blkPS v d s k ++ [startMarker k] ++ midLines k (s.get k))).length -
        ((linesFlat (blkPS v d s k)).length + (startMarker k).length)) =
      nl :: linesFlat (midLines k (s.get k)) := by
  rw [block_around_marker v d s t k]
  have hx : (linesFlat (blkPS v d s k)).length + (startMarker k).length =
      (linesFlat (blkPS v d s k) ++ startMarker k).length := by
    simp [List.length_append]
  have hc : (linesFlat (blkPS v d s k ++ [startMarker k] ++
        midLines k (s.get k))).length -
      ((linesFlat (blkPS v d s k)).length + (startMarker k).length) =
      (nl :: linesFlat (midLines k (s.get k))).length := by
    rw [midFlat_len]
    simp only [List.length_cons]
    omega
  rw [hc, hx]
  exact slice_middle _ _ _

theorem stripNonEntry_shape (k : SectionKey) (e0 : Str) (e' : List Str)
    (hok : ∀ x ∈ e0 :: e', entryOk x = true) :
    stripNonEntryLines ([] :: sectionHeading k :: [] :: ((e0 :: e') ++ [[]])) =
      e0 :: e' := by
  have hblank : ∀ x ∈ e0 :: e', blankLine x = false :=
    fun x hx => (entryOk_facts (hok x hx)).1
  have ht1 : List.dropWhile blankLine
      ([] :: sectionHeading k :: [] :: ((e0 :: e') ++ [[]])) =
      sectionHeading k :: [] :: ((e0 :: e') ++ [[]]) := by
    rw [List.dropWhile_cons_of_pos (by decide),
      List.dropWhile_cons_of_neg (by cases k <;> decide)]
  have hpref : (str "###").isPrefixOf (lstrip (sectionHeading k)) = true := by
    cases k <;> decide
  have ht3 : List.dropWhile blankLine ([] :: ((e0 :: e') ++ [[]])) =
      (e0 :: e') ++ [[]] := by
    rw [List.dropWhile_cons_of_pos (by decide), List.cons_append,
      List.dropWhile_cons_of_neg (by simp [hblank e0 (List.mem_cons_self e0 e')])]
  have ht4 : (((e0 :: e') ++ [[]]).reverse.dropWhile blankLine).reverse = e0 :: e' := by
    rw [List.reverse_append]
    have h1 : ([[]] : List Str).reverse ++ (e0 :: e').reverse =
        [] :: (e0 :: e').reverse := by simp
    rw [h1, List.dropWhile_cons_of_pos (by decide)]
    cases hrev : (e0 :: e').reverse with
    | nil => exact absurd hrev (by simp)
    | cons x xs =>
      rw [List.dropWhile_cons_of_neg]
      · rw [← hrev, List.reverse_reverse]
      · have hx : x ∈ e0 :: e' := by
          rw [← List.mem_reverse, hrev]
          exact List.mem_cons_self x xs
        simp [hblank x hx]
  have ht5 : (e0 :: e').filter (fun l => !(blankLine l)) = e0 :: e' := by
    rw [List.filter_eq_self]
    intro x hx
    simp [hblank x hx]
  have ht6 : (e0 :: e').map rstrip = e0 :: e' := by
    have h2 : ∀ x ∈ e0 :: e', rstrip x = id x :=
      fun x hx => (entryOk_facts (hok x hx)).2.1
    rw [List.map_congr_left h2, List.map_id]
  simp only [stripNonEntryLines, ht1, hpref, if_true, ht3, ht4, ht5, ht6]

theorem extract_segment (k : SectionKey) (e : List Str)
    (hok : ∀ x ∈ e, entryOk x = true) :
    extractEntriesFromSegment (nl :: linesFlat (midLines k e)) = e := by
  cases e with
  | nil => rfl
  | cons e0 e' =>
    have hmid : midLines k (e0 :: e') = sectionHeading k :: [] :: ((e0 :: e') ++ [[]]) := by
      simp [midLines]
    have hnlmid : ∀ l ∈ midLines k (e0 :: e'), nl ∉ l := by
      intro l hl
      rcases midLines_mem hl with rfl | rfl | hl2
      · cases k <;> decide
      · simp
      · exact (entryOk_facts (hok l hl2)).2.2.2.2
    have hmid0 : midLines k (e0 :: e') ≠ [] := by
      rw [hmid]
      simp
    have hsa : splitAll (nl :: linesFlat (midLines k (e0 :: e'))) =
        [] :: (midLines k (e0 :: e') ++ [[]]) := by
      have h0 : splitAll (nl :: linesFlat (midLines k (e0 :: e'))) =
          [] :: splitAll (linesFlat (midLines k (e0 :: e'))) := by
        simp [splitAll]
      rw [h0, splitAll_linesFlat _ hmid0 hnlmid]
    have hsl : splitlines (nl :: linesFlat (midLines k (e0 :: e'))) =
        [] :: midLines k (e0 :: e') := by
      rw [splitlines]
      simp only [hsa]
      rw [show ([] : Str) :: (midLines k (e0 :: e') ++ [[]]) =
        (([] : Str) :: midLines k (e0 :: e')) ++ [[]] from by simp]
      rw [List.getLast?_concat, if_pos rfl, List.dropLast_concat]
    rw [extractEntriesFromSegment, hsl, hmid]
    exact stripNonEntry_shape k e0 e' hok

end SmartChangelog

namespace SmartChangelog

theorem coreList_cons (v d : Str) (s : Sections) :
    coreList v d s = (str "## " ++ v) ::
      ((str "_Last updated: " ++ d ++ str "_") :: ([] :: restLines s)) := by
  rw [coreList_split]
  simp

theorem parse_render (v d : Str) (s : Sections) (t : Str)
    (ht : t = [] ∨ t = [nl])
    (hv : versionOk v = true) (hd : validDate d = true)
    (hok : ∀ k, ∀ e ∈ s.get k, entryOk e = true) :
    parseVersionBlock (joinNl (coreList v d s) ++ t) = ⟨v, d, s⟩ := by
  have hvf := versionOk_facts hv
  have hnl : ∀ l ∈ coreList v d s, nl ∉ l := by
    apply coreList_no_nl
    · exact hvf.2.1
    · intro hmem
      rcases validDate_chars hd _ hmem with h | h
      · exact absurd h (by decide)
      · exact absurd h (by decide)
    · intro k e he
      exact (entryOk_facts (hok k e he)).2.2.2.2
  have hlines : splitlines (strip (joinNl (coreList v d s) ++ t)) = coreList v d s := by
    rw [strip_coreJoin v d s t ht, splitlines_coreJoin v d s hnl]
  have hdate : searchLastUpdated (joinNl (coreList v d s) ++ t) = some d :=
    searchLU_block_valid v d s t hv hd
  have hlt : ∀ k : SectionKey, (linesFlat (blkPS v d s k)).length <
      (linesFlat (blkPS v d s k ++ [startMarker k] ++ midLines k (s.get k))).length := by
    intro k
    rw [midFlat_len]
    omega
  have hpref : (str "## ").isPrefixOf (str "## " ++ v) = true := by
    rw [List.isPrefixOf_iff_prefix]
    exact List.prefix_append _ _
  have hdrop : (str "## " ++ v).drop 3 = v := by
    have h3 : (3 : Nat) = (str "## ").length := rfl
    rw [h3, List.drop_left]
  simp only [parseVersionBlock]
  rw [hlines, hdate]
  rw [findSub_startMarker v d s t hv hd hok .feature,
    findSub_endMarker v d s t hv hd hok .feature,
    findSub_startMarker v d s t hv hd hok .fix,
    findSub_endMarker v d s t hv hd hok .fix,
    findSub_startMarker v d s t hv hd hok .change,
    findSub_endMarker v d s t hv hd hok .change]
  simp only []
  rw [if_pos (hlt .feature), if_pos (hlt .fix), if_pos (hlt .change)]
  rw [segment_slice v d s t .feature, segment_slice v d s t .fix,
    segment_slice v d s t .change]
  rw [extract_segment .feature (s.get .feature) (hok .feature),
    extract_segment .fix (s.get .fix) (hok .fix),
    extract_segment .change (s.get .change) (hok .change)]
  rw [coreList_cons]
  simp only []
  rw [if_pos hpref, hdrop, hvf.1]
  rfl

end SmartChangelog

/-! ## C1: the render/parse round trip -/

namespace SmartChangelog

/-- C1 counterexample: the claim quantifies over every date string, but
`_parse_version_block` only recovers dates of the shape `\d{4}-\d{2}-\d{2}`;
rendering with the date `today` parses back to an empty date. -/
theorem renderVersionBlock_date_counterexample :
    (parseVersionBlock (renderVersionBlock (str "1.0") (str "today")
      emptySections)).date ≠ str "today" := by decide

/-- C1 (amended): for a version label that is stripped, single-line and free of
marker text, a date of the shape `\d{4}-\d{2}-\d{2}`, and well-formed section
entries, parsing the rendered block recovers exactly the version, the date and
the sections mapping. -/
theorem renderVersionBlock_parse_roundtrip (v d : Str) (s : Sections)
    (hv : versionOk v = true) (hd : validDate d = true)
    (hok : ∀ k, ∀ e ∈ s.get k, entryOk e = true) :
    parseVersionBlock (renderVersionBlock v d s) = ⟨v, d, s⟩ := by
  rw [normalise_render, renderFallback_flat,
    joinNl_eq_linesFlat_dropLastNl _ (coreList_ne_nil v d s)]
  exact parse_render v d s [nl] (Or.inr rfl) hv hd hok

/-- C1 witness. -/
theorem renderVersionBlock_parse_roundtrip_witness :
    parseVersionBlock (renderVersionBlock (str "1.2.3") (str "2025-01-31")
      ⟨[str "- Add thing (AB-12)"], [], [str "- Tweak (CD-3)"]⟩) =
    ⟨str "1.2.3", str "2025-01-31",
      ⟨[str "- Add thing (AB-12)"], [], [str "- Tweak (CD-3)"]⟩⟩ :=
  renderVersionBlock_parse_roundtrip _ _ _ (by decide) (by decide)
    (by intro k; cases k <;> decide)

end SmartChangelog

/-! ## The date substitution on a rendered block -/

namespace SmartChangelog

theorem subLU_line_skip (ds : Str) : ∀ {l : Str}, nl ∉ l →
    containsSub l lastUpdatedLit = false → ∀ (z : Str),
    subLastUpdated ds (l ++ nl :: z) =
      (subLastUpdated ds z).map (fun w => l ++ nl :: w) := by
  intro l
  induction l with
  | nil =>
    intro _ _ z
    rw [List.nil_append, subLastUpdated,
      lastUpdatedMatchAt_none_of_no_lit
        (@isPrefixOf_eq_false_of_head lastUpdatedLit (nl :: z)
          '_' nl rfl rfl (by decide))]
    rfl
  | cons c cs ih =>
    intro hnl hc z
    have hfacts := containsSub_cons_false hc
    have hnp : lastUpdatedLit.isPrefixOf ((c :: cs) ++ nl :: z) = false := by
      cases hp : lastUpdatedLit.isPrefixOf ((c :: cs) ++ nl :: z)
      · rfl
      · exact absurd (by simpa using (List.isPrefixOf_iff_prefix).1 hp)
          (not_lit_prefix_of_line hnl hc 0 (by omega) z)
    rw [List.cons_append, subLastUpdated,
      lastUpdatedMatchAt_none_of_no_lit (by simpa using hnp)]
    have h2 := ih (fun hm => hnl (List.mem_cons_of_mem c hm)) hfacts.2 z
    show (subLastUpdated ds (cs ++ nl :: z)).map (c :: ·) = _
    rw [h2, Option.map_map]
    rfl

theorem subLU_at_date_line (ds : Str) {d z : Str} (hd : validDate d = true) :
    subLastUpdated ds (str "_Last updated: " ++ d ++ ('_' :: z)) =
      some (str "_Last updated: " ++ ds ++ ('_' :: z)) := by
  have hm := lastUpdatedMatchAt_date_line (z := z) hd
  have hcons : str "_Last updated: " ++ d ++ ('_' :: z) =
      '_' :: (str "Last updated: " ++ d ++ ('_' :: z)) := by
    simp [str]
  rw [hcons] at hm ⊢
  rw [subLastUpdated, hm]
  simp [lastUpdatedLit, str, List.append_assoc]

theorem subLU_block (ds v d : Str) (s : Sections) (t : Str)
    (hv : versionOk v = true) (hd : validDate d = true) :
    subLastUpdated ds (joinNl (coreList v d s) ++ t) =
      some (joinNl (coreList v ds s) ++ t) := by
  obtain ⟨hl0nl, hl0lit⟩ := l0_facts hv
  rw [block_decomp v d s t, subLU_line_skip ds hl0nl hl0lit]
  have hshape : (str "_Last updated: " ++ d ++ str "_") ++ nl ::
      (joinNl ([] :: restLines s) ++ t) =
      str "_Last updated: " ++ d ++ ('_' :: nl :: (joinNl ([] :: restLines s) ++ t)) := by
    simp [str, List.append_assoc]
  rw [hshape, subLU_at_date_line ds hd, block_decomp v ds s t]
  simp [str, List.append_assoc]

theorem normalise_fix (v d : Str) (s : Sections) :
    normaliseBlock (joinNl (coreList v d s) ++ [nl]) =
      joinNl (coreList v d s) ++ [nl] := by
  rw [normaliseBlock, stripNl_append_nl]
  · intro c hc
    rw [coreJoin_head v d s] at hc
    have h2 : c = '#' := by simpa [eq_comm] using hc
    subst h2
    decide
  · intro c hc
    rw [coreJoin_last v d s] at hc
    have h2 : c = '>' := by simpa [eq_comm] using hc
    subst h2
    decide

end SmartChangelog

/-! ## No version lookahead strictly inside a rendered block -/

namespace SmartChangelog

theorem not_hh_prefix_line {l : Str} (hpf : (str "## ").isPrefixOf l = false) (w : Str) :
    ¬ (str "## ") <+: (l ++ nl :: w) := by
  intro hcon
  rcases prefix_append_cases hcon with h1 | ⟨h1, h2⟩
  · exact absurd ((List.isPrefixOf_iff_prefix).2 h1) (by simp [hpf])
  · have h3len : (str "## ").length = 3 := rfl
    by_cases hlen : (str "## ").length ≤ l.length
    · have he : l = str "## " := List.IsPrefix.eq_of_length_le h1 hlen
      rw [he] at hpf
      exact absurd hpf (by decide)
    · have hne : (str "## ").drop l.length ≠ [] := by
        intro hc2
        have h4 := congrArg List.length hc2
        rw [List.length_drop, h3len] at h4
        simp only [List.length_nil] at h4
        omega
      rcases List.prefix_cons_iff.1 h2 with h3 | ⟨t3, h3, _⟩
      · exact hne h3
      · have hmem : nl ∈ (str "## ").drop l.length := by
          rw [h3]
          simp
        exact absurd (List.drop_subset _ _ hmem) (by decide)

theorem lines_no_hh {ls : List Str}
    (hpf : ∀ l ∈ ls, (str "## ").isPrefixOf l = false)
    {z : Str} (hz : ¬ (str "## ") <+: z) :
    ¬ (str "## ") <+: (linesFlat ls ++ z) := by
  cases ls with
  | nil => simpa [linesFlat_nil] using hz
  | cons l ls =>
    rw [linesFlat_cons, List.append_assoc, List.cons_append]
    exact not_hh_prefix_line (hpf l (by simp)) _

theorem lines_no_lookahead : ∀ {ls : List Str},
    (∀ l ∈ ls, nl ∉ l) → (∀ l ∈ ls, (str "## ").isPrefixOf l = false) →
    ∀ {z : Str}, (¬ (str "## ") <+: z) →
    ∀ q, q < (linesFlat ls).length →
      ¬ (str "\n## ") <+: ((linesFlat ls ++ z).drop q) := by
  intro ls
  induction ls with
  | nil =>
    intro _ _ z _ q hq
    simp [linesFlat_nil] at hq
  | cons l ls ih =>
    intro hnl hpf z hz q hq hcon
    rw [linesFlat_cons, List.append_assoc, List.cons_append] at hcon
    by_cases hql : q < l.length
    · rw [List.drop_append_of_le_length (le_of_lt hql)] at hcon
      cases hldq : l.drop q with
      | nil =>
        have h4 := congrArg List.length hldq
        rw [List.length_drop] at h4
        simp only [List.length_nil] at h4
        omega
      | cons c cs =>
        rw [hldq, List.cons_append] at hcon
        rcases List.prefix_cons_iff.1 hcon with h3 | ⟨t3, h3, _⟩
        · exact absurd h3 (by decide)
        · have hc : c = nl := by
            have h4 := congrArg List.head? h3
            simp only [List.head?_cons] at h4
            have h5 : (str "\n## ").head? = some nl := rfl
            rw [h5] at h4
            simpa [eq_comm] using h4
          have hmemc : c ∈ l.drop q := by
            rw [hldq]
            simp
          exact hnl l (by simp) (hc ▸ List.drop_subset _ _ hmemc)
    by_cases hq0 : q = l.length
    · subst hq0
      rw [List.drop_left] at hcon
      have hsplit : str "\n## " = nl :: str "## " := rfl
      rw [hsplit] at hcon
      rcases hcon with ⟨t, ht⟩
      rw [List.cons_append] at ht
      injection ht with _ ht2
      exact lines_no_hh (fun x hx => hpf x (List.mem_cons_of_mem l hx)) hz ⟨t, ht2⟩
    · have hlen : (linesFlat (l :: ls)).length =
          l.length + 1 + (linesFlat ls).length := by
        rw [linesFlat_cons]
        simp [List.length_append]
        omega
      have hd2 : (l ++ nl :: (linesFlat ls ++ z)).drop q =
          (linesFlat ls ++ z).drop (q - l.length - 1) := by
        have hq3 : q = l.length + ((q - l.length - 1) + 1) := by omega
        conv_lhs => rw [hq3]
        rw [List.drop_append, List.drop_succ_cons]
      rw [hd2] at hcon
      exact ih (fun x hx => hnl x (List.mem_cons_of_mem l hx))
        (fun x hx => hpf x (List.mem_cons_of_mem l hx)) hz
        (q - l.length - 1) (by rw [hlen] at hq; omega) hcon

theorem findBlockEnd_eq_of {content : Str} {j0 val : Nat}
    (h1 : j0 ≤ val) (h2 : val ≤ content.length)
    (h3 : versionLookahead content val = true)
    (h4 : ∀ k, j0 ≤ k → k < val → versionLookahead content k = false) :
    findBlockEnd content j0 = val := by
  obtain ⟨s1, s2, s3, s4⟩ := findBlockEnd_spec content j0 (by omega)
  by_contra hne
  rcases Nat.lt_or_ge (findBlockEnd content j0) val with hlt | hge
  · have h5 := h4 _ s1 hlt
    rw [s3] at h5
    exact absurd h5 (by simp)
  · have hgt : val < findBlockEnd content j0 := by omega
    have h5 := s4 val h1 hgt
    rw [h3] at h5
    exact absurd h5 (by simp)

end SmartChangelog

/-! ## Locating a rendered block inside a structured document -/

namespace SmartChangelog

theorem hh_not_prefix_post {post : Str}
    (hpost : post = [] ∨ (str "\n## ") <+: post) : ¬ (str "## ") <+: post := by
  rcases hpost with rfl | ⟨w, hw⟩
  · intro h
    exact absurd (List.prefix_nil.1 h) (by decide)
  · intro hcon
    rcases hcon with ⟨t, ht⟩
    have h1 : ('#' : Char) = '\n' := by
      have h2 := congrArg List.head? (ht.trans hw.symm)
      have e1 : (str "## " ++ t).head? = some '#' := rfl
      have e2 : (str "\n## " ++ w).head? = some '\n' := rfl
      rw [e1, e2] at h2
      exact Option.some.inj h2
    exact absurd h1 (by decide)

theorem findVB_structured (pre post v d : Str) (s : Sections)
    (hvnl : nl ∉ v) (hdnl : nl ∉ d)
    (hes : ∀ k, ∀ e ∈ s.get k, nl ∉ e ∧ (str "## ").isPrefixOf e = false)
    (hpre : ∀ p, p < pre.length →
      ¬ ((str "## " ++ v) ++ [nl]) <+: ((pre ++ ((str "## " ++ v) ++ [nl])).drop p))
    (hpost : post = [] ∨ (str "\n## ") <+: post) :
    findVersionBlock (pre ++ (joinNl (coreList v d s) ++ [nl]) ++ post)
      (str "## " ++ v) =
      some (pre.length, pre.length + (joinNl (coreList v d s) ++ [nl]).length) := by
  have hR : joinNl (coreList v d s) ++ [nl] = linesFlat (coreList v d s) :=
    (joinNl_eq_linesFlat_dropLastNl _ (coreList_ne_nil v d s)).symm
  have hRsplit : joinNl (coreList v d s) ++ [nl] =
      (str "## " ++ v) ++ nl ::
        linesFlat ((str "_Last updated: " ++ d ++ str "_") :: ([] :: restLines s)) := by
    rw [hR, coreList_cons, linesFlat_cons]
  have hassoc : pre ++ (joinNl (coreList v d s) ++ [nl]) ++ post =
      pre ++ ((joinNl (coreList v d s) ++ [nl]) ++ post) := by
    rw [List.append_assoc]
  have hWsplit : (joinNl (coreList v d s) ++ [nl]) ++ post =
      ((str "## " ++ v) ++ [nl]) ++
        (linesFlat ((str "_Last updated: " ++ d ++ str "_") :: ([] :: restLines s)) ++
          post) := by
    rw [hRsplit]
    simp [List.append_assoc]
  have hfs : findSub (pre ++ (joinNl (coreList v d s) ++ [nl]) ++ post)
      ((str "## " ++ v) ++ [nl]) = some pre.length := by
    rw [hassoc]
    apply findSub_eq_some_of
    · rw [List.drop_left, hWsplit]
      exact List.prefix_append _ _
    · intro k hk hcon
      rw [List.drop_append_of_le_length (le_of_lt hk), hWsplit] at hcon
      have hcon2 : ((str "## " ++ v) ++ [nl]) <+:
          (pre.drop k ++ ((str "## " ++ v) ++ [nl])) := by
        apply prefix_append_of_length
        · rw [← List.append_assoc] at hcon
          exact hcon
        · simp [List.length_append]
      apply hpre k hk
      rw [List.drop_append_of_le_length (le_of_lt hk)]
      exact hcon2
  have hRlen : (joinNl (coreList v d s) ++ [nl]).length =
      (str "## " ++ v).length + 1 +
        (linesFlat ((str "_Last updated: " ++ d ++ str "_") ::
          ([] :: restLines s))).length := by
    rw [hRsplit]
    simp [List.length_append]
    omega
  have hclen : (pre ++ (joinNl (coreList v d s) ++ [nl]) ++ post).length =
      pre.length + (joinNl (coreList v d s) ++ [nl]).length + post.length := by
    simp [List.length_append]
    omega
  have hdropval : (pre ++ (joinNl (coreList v d s) ++ [nl]) ++ post).drop
      (pre.length + (joinNl (coreList v d s) ++ [nl]).length) = post := by
    rw [show pre.length + (joinNl (coreList v d s) ++ [nl]).length =
      (pre ++ (joinNl (coreList v d s) ++ [nl])).length from by simp, List.drop_left]
  have hCSmem : ∀ l ∈ ((str "_Last updated: " ++ d ++ str "_") :: ([] :: restLines s)),
      l ∈ coreList v d s := by
    intro l hl
    rw [coreList_cons]
    exact List.mem_cons_of_mem _ hl
  have hCSnl : ∀ l ∈ ((str "_Last updated: " ++ d ++ str "_") :: ([] :: restLines s)),
      nl ∉ l := by
    intro l hl
    exact coreList_no_nl v d s hvnl hdnl (fun k e he => (hes k e he).1) l (hCSmem l hl)
  have hsmh : ∀ k : SectionKey, (startMarker k).head? = some '<' := by
    intro k
    cases k <;> rfl
  have hemh : ∀ k : SectionKey, (endMarker k).head? = some '<' := by
    intro k
    cases k <;> rfl
  have hCSpf : ∀ l ∈ ((str "_Last updated: " ++ d ++ str "_") :: ([] :: restLines s)),
      (str "## ").isPrefixOf l = false := by
    intro l hl
    rcases List.mem_cons.1 hl with rfl | hl
    · exact @isPrefixOf_eq_false_of_head _ _ '#' '_' rfl rfl (by decide)
    rcases List.mem_cons.1 hl with rfl | hl
    · rfl
    rcases restLines_mem hl with rfl | ⟨k, hk⟩
    · rfl
    rcases sectCore_mem hk with rfl | rfl | rfl | rfl | hmem
    · exact @isPrefixOf_eq_false_of_head _ _ '#' '<' rfl (hsmh k) (by decide)
    · exact @isPrefixOf_eq_false_of_head _ _ '#' '<' rfl (hemh k) (by decide)
    · cases k <;> decide
    · rfl
    · exact (hes k l hmem).2
  have hfbe : findBlockEnd (pre ++ (joinNl (coreList v d s) ++ [nl]) ++ post)
      (pre.length + (str "## " ++ v).length + 1) =
      pre.length + (joinNl (coreList v d s) ++ [nl]).length := by
    apply findBlockEnd_eq_of
    · omega
    · omega
    · rw [versionLookahead, hdropval]
      rcases hpost with rfl | hp2
      · have hlen2 : pre.length + (joinNl (coreList v d s) ++ [nl]).length =
            (pre ++ (joinNl (coreList v d s) ++ [nl]) ++ ([] : Str)).length := by
          simp [List.length_append]
        simp [hlen2]
      · have h2 : (str "\n## ").isPrefixOf post = true := by
          rw [List.isPrefixOf_iff_prefix]
          exact hp2
        simp [h2]
    · intro k hk1 hk2
      rw [versionLookahead]
      apply Bool.or_eq_false_iff.mpr
      constructor
      · apply decide_eq_false
        omega
      · cases hip : (str "\n## ").isPrefixOf
          ((pre ++ (joinNl (coreList v d s) ++ [nl]) ++ post).drop k)
        · rfl
        · exfalso
          have hpref := (List.isPrefixOf_iff_prefix).1 hip
          have hB1 : (((str "## " ++ v) ++ [nl])).length =
              (str "## " ++ v).length + 1 := by
            rw [List.length_append]
            rfl
          obtain ⟨m, hm⟩ : ∃ m, k = pre.length +
              (((str "## " ++ v) ++ [nl]).length + m) := by
            refine ⟨k - pre.length - ((str "## " ++ v) ++ [nl]).length, ?_⟩
            rw [hB1]
            omega
          rw [hassoc, hm, List.drop_append, hWsplit, List.drop_append] at hpref
          have hmlt : m < (linesFlat ((str "_Last updated: " ++ d ++ str "_") ::
              ([] :: restLines s))).length := by
            rw [hm, hB1] at hk2
            rw [hRlen] at hk2
            omega
          exact lines_no_lookahead hCSnl hCSpf (hh_not_prefix_post hpost) m hmlt hpref
  rw [findVersionBlock, hfs]
  dsimp only
  rw [hfbe]

end SmartChangelog

/-! ## Splicing a replacement block into a structured document -/

namespace SmartChangelog

theorem take_structured (pre R post : Str) :
    (pre ++ R ++ post).take pre.length = pre := by
  rw [List.append_assoc, List.take_left]

theorem drop_structured (pre R post : Str) :
    (pre ++ R ++ post).drop (pre.length + R.length) = post := by
  rw [show pre.length + R.length = (pre ++ R).length from by simp, List.drop_left]

theorem blockSlice_structured (pre R post : Str) :
    blockSlice (pre ++ R ++ post) pre.length (pre.length + R.length) = R := by
  unfold blockSlice
  rw [show pre.length + R.length - pre.length = R.length from by omega]
  exact slice_middle pre R post

theorem render_join (v d : Str) (s : Sections) :
    renderVersionBlock v d s = joinNl (coreList v d s) ++ [nl] := by
  rw [normalise_render, renderFallback_flat,
    joinNl_eq_linesFlat_dropLastNl _ (coreList_ne_nil v d s)]

theorem replace_structured (pre post v d B : Str) (s : Sections)
    (hvnl : nl ∉ v) (hdnl : nl ∉ d)
    (hes : ∀ k, ∀ e ∈ s.get k, nl ∉ e ∧ (str "## ").isPrefixOf e = false)
    (hpre : ∀ p, p < pre.length →
      ¬ ((str "## " ++ v) ++ [nl]) <+: ((pre ++ ((str "## " ++ v) ++ [nl])).drop p))
    (hpost : post = [] ∨ (str "\n## ") <+: post) :
    replaceVersionBlock (pre ++ (joinNl (coreList v d s) ++ [nl]) ++ post)
      (str "## " ++ v) B =
      if joinNl (coreList v d s) ++ [nl] = normaliseBlock B
      then (pre ++ (joinNl (coreList v d s) ++ [nl]) ++ post, false)
      else (pre ++ normaliseBlock B ++ post, true) := by
  unfold replaceVersionBlock
  rw [findVB_structured pre post v d s hvnl hdnl hes hpre hpost]
  dsimp only
  rw [blockSlice_structured, normalise_fix, take_structured, drop_structured]

theorem update_structured (pre post v d ds : Str) (s : Sections)
    (hv : versionOk v = true) (hd : validDate d = true)
    (hok : ∀ k, ∀ e ∈ s.get k, entryOk e = true)
    (hpf : ∀ k, ∀ e ∈ s.get k, (str "## ").isPrefixOf e = false)
    (hds : validDate ds = true)
    (hpre : ∀ p, p < pre.length →
      ¬ ((str "## " ++ v) ++ [nl]) <+: ((pre ++ ((str "## " ++ v) ++ [nl])).drop p))
    (hpost : post = [] ∨ (str "\n## ") <+: post) :
    updateLastUpdated (pre ++ (joinNl (coreList v d s) ++ [nl]) ++ post)
      (str "## " ++ v) ds =
      if d = ds then (pre ++ (joinNl (coreList v d s) ++ [nl]) ++ post, false)
      else (pre ++ (joinNl (coreList v ds s) ++ [nl]) ++ post, true) := by
  have hdnl : nl ∉ d := by
    intro hm
    rcases validDate_chars hd _ hm with h | h
    · exact absurd h (by decide)
    · exact absurd h (by decide)
  have hes : ∀ k, ∀ e ∈ s.get k, nl ∉ e ∧ (str "## ").isPrefixOf e = false :=
    fun k e he => ⟨(entryOk_facts (hok k e he)).2.2.2.2, hpf k e he⟩
  unfold updateLastUpdated
  rw [findVB_structured pre post v d s (versionOk_facts hv).2.1 hdnl hes hpre hpost]
  dsimp only
  rw [blockSlice_structured, subLU_block ds v d s [nl] hv hd]
  dsimp only
  by_cases hdd : d = ds
  · subst hdd
    simp
  · rw [if_neg hdd]
    have hne : joinNl (coreList v ds s) ++ [nl] ≠ joinNl (coreList v d s) ++ [nl] := by
      intro hcon
      apply hdd
      have h1 := searchLU_block_valid v d s [nl] hv hd
      have h2 := searchLU_block_valid v ds s [nl] hv hds
      rw [hcon, h1] at h2
      exact Option.some.inj h2
    rw [if_neg hne, take_structured, drop_structured]

end SmartChangelog

/-! ## The for/else upsert: a second pass finds the freshly written entry -/

namespace SmartChangelog

theorem mem_set {α : Type} : ∀ {l : List α} {i : Nat} {a x : α},
    x ∈ l.set i a → x = a ∨ x ∈ l := by
  intro l
  induction l with
  | nil =>
    intro i a x hx
    rw [List.set_nil] at hx
    exact absurd hx (List.not_mem_nil x)
  | cons b l ih =>
    intro i a x hx
    cases i with
    | zero =>
      rw [List.set_cons_zero] at hx
      rcases List.mem_cons.1 hx with rfl | hx
      · exact Or.inl rfl
      · exact Or.inr (List.mem_cons_of_mem _ hx)
    | succ n =>
      rw [List.set_cons_succ] at hx
      rcases List.mem_cons.1 hx with rfl | hx
      · exact Or.inr (List.mem_cons_self _ _)
      · rcases ih hx with h | h
        · exact Or.inl h
        · exact Or.inr (List.mem_cons_of_mem _ h)

theorem upsertEntryList_changed_ne {entry marker : Str} {l nL : List Str}
    (hse : strip entry = entry)
    (h : upsertEntryList entry marker l = .changed nL) :
    nL ≠ l ∧ (∀ x ∈ nL, x = entry ∨ x ∈ l) := by
  unfold upsertEntryList at h
  cases hfi : l.findIdx? (fun line => containsSub line marker) with
  | none =>
    rw [hfi] at h
    have hnL : nL = entry :: l := by
      injection h with h2
      exact h2.symm
    subst hnL
    constructor
    · intro hcon
      have h3 := congrArg List.length hcon
      simp at h3
    · intro x hx
      rcases List.mem_cons.1 hx with rfl | hx
      · exact Or.inl rfl
      · exact Or.inr hx
  | some i =>
    rw [hfi] at h
    dsimp only at h
    by_cases hstrip : strip (l.getD i []) = entry
    · rw [if_pos hstrip] at h
      exact (UpsertOutcome.noConfusion h)
    · rw [if_neg hstrip] at h
      have hnL : nL = l.set i entry := by
        injection h with h2
        exact h2.symm
      subst hnL
      obtain ⟨hilen, hpi, hmin⟩ := List.findIdx?_eq_some_iff_getElem.1 hfi
      constructor
      · intro hcon
        have hget : (l.set i entry)[i]? = l[i]? := by rw [hcon]
        rw [List.getElem?_set_self hilen, List.getElem?_eq_getElem hilen] at hget
        have hli : l[i] = entry := (Option.some.inj hget).symm
        apply hstrip
        have hgetD : l.getD i [] = l[i] := by
          rw [List.getD_eq_getElem?_getD, List.getElem?_eq_getElem hilen]
          rfl
        rw [hgetD, hli, hse]
      · intro x hx
        exact mem_set hx

theorem upsertEntryList_after_insert (entry marker : Str) (l : List Str)
    (hm : containsSub entry marker = true) (hse : strip entry = entry) :
    upsertEntryList entry marker (entry :: l) = .unchanged := by
  unfold upsertEntryList
  rw [List.findIdx?_cons, if_pos hm]
  dsimp only
  rw [if_pos]
  show strip entry = entry
  exact hse

theorem upsertEntryList_after_set {entry marker : Str} {l : List Str} {i : Nat}
    (hm : containsSub entry marker = true) (hse : strip entry = entry)
    (hfi : l.findIdx? (fun line => containsSub line marker) = some i) :
    upsertEntryList entry marker (l.set i entry) = .unchanged := by
  obtain ⟨hilen, hpi, hmin⟩ := List.findIdx?_eq_some_iff_getElem.1 hfi
  have hilen2 : i < (l.set i entry).length := by simpa using hilen
  have hfi2 : (l.set i entry).findIdx? (fun line => containsSub line marker) =
      some i := by
    apply List.findIdx?_eq_some_iff_getElem.2
    refine ⟨hilen2, ?_, ?_⟩
    · simp only [List.getElem_set_self]
      exact hm
    · intro j hji
      have hne : i ≠ j := by omega
      simp only [List.getElem_set_ne hne]
      exact hmin j hji
  unfold upsertEntryList
  rw [hfi2]
  dsimp only
  rw [if_pos]
  have hg : (l.set i entry).getD i [] = entry := by
    rw [List.getD_eq_getElem?_getD, List.getElem?_set_self hilen]
    rfl
  rw [hg, hse]

theorem upsertEntryList_changed_next {entry marker : Str} {l nL : List Str}
    (hm : containsSub entry marker = true) (hse : strip entry = entry)
    (h : upsertEntryList entry marker l = .changed nL) :
    upsertEntryList entry marker nL = .unchanged := by
  unfold upsertEntryList at h
  cases hfi : l.findIdx? (fun line => containsSub line marker) with
  | none =>
    rw [hfi] at h
    have hnL : nL = entry :: l := by
      injection h with h2
      exact h2.symm
    subst hnL
    exact upsertEntryList_after_insert entry marker l hm hse
  | some i =>
    rw [hfi] at h
    dsimp only at h
    by_cases hstrip : strip (l.getD i []) = entry
    · rw [if_pos hstrip] at h
      exact (UpsertOutcome.noConfusion h)
    · rw [if_neg hstrip] at h
      have hnL : nL = l.set i entry := by
        injection h with h2
        exact h2.symm
      subst hnL
      exact upsertEntryList_after_set hm hse hfi

theorem get_set_self (s : Sections) (k : SectionKey) (lst : List Str) :
    (s.set k lst).get k = lst := by
  cases k <;> rfl

theorem get_set_ne (s : Sections) {k k2 : SectionKey} (h : k2 ≠ k) (lst : List Str) :
    (s.set k lst).get k2 = s.get k2 := by
  cases k <;> cases k2 <;> first | rfl | exact absurd rfl h

theorem versionValue_eq (v : Str) :
    (if v = [] then strip (replaceFirst (str "## " ++ v) (str "##") []) else v) = v := by
  by_cases hv0 : v = []
  · subst hv0
    rw [if_pos rfl]
    decide
  · rw [if_neg hv0]

end SmartChangelog

namespace SmartChangelog

theorem upsert_structured (pre post v d catH entry tid : Str) (s : Sections)
    (hv : versionOk v = true) (hd : validDate d = true)
    (hok : ∀ k, ∀ e ∈ s.get k, entryOk e = true)
    (hpf : ∀ k, ∀ e ∈ s.get k, (str "## ").isPrefixOf e = false)
    (hE : entryOk entry = true) (hse : strip entry = entry)
    (hpre : ∀ p, p < pre.length →
      ¬ ((str "## " ++ v) ++ [nl]) <+: ((pre ++ ((str "## " ++ v) ++ [nl])).drop p))
    (hpost : post = [] ∨ (str "\n## ") <+: post) :
    upsertEntryForVersion (pre ++ (joinNl (coreList v d s) ++ [nl]) ++ post)
      (str "## " ++ v) catH entry tid =
      match upsertEntryList entry ('(' :: tid) (s.get (sectionKeyFor catH)) with
      | .unchanged => (pre ++ (joinNl (coreList v d s) ++ [nl]) ++ post, false)
      | .changed nL =>
        (pre ++ (joinNl (coreList v d (s.set (sectionKeyFor catH) nL)) ++ [nl]) ++ post,
          true) := by
  have hdnl : nl ∉ d := by
    intro hm
    rcases validDate_chars hd _ hm with h | h
    · exact absurd h (by decide)
    · exact absurd h (by decide)
  have hes : ∀ k, ∀ e ∈ s.get k, nl ∉ e ∧ (str "## ").isPrefixOf e = false :=
    fun k e he => ⟨(entryOk_facts (hok k e he)).2.2.2.2, hpf k e he⟩
  unfold upsertEntryForVersion
  rw [findVB_structured pre post v d s (versionOk_facts hv).2.1 hdnl hes hpre hpost]
  dsimp only
  rw [blockSlice_structured, parse_render v d s [nl] (Or.inr rfl) hv hd hok]
  dsimp only
  cases hu : upsertEntryList entry ('(' :: tid) (s.get (sectionKeyFor catH)) with
  | unchanged => rfl
  | changed nL =>
    dsimp only
    rw [versionValue_eq v, render_join]
    have hok2 : ∀ k, ∀ e ∈ (s.set (sectionKeyFor catH) nL).get k, entryOk e = true := by
      intro k e he
      by_cases hk : k = sectionKeyFor catH
      · subst hk
        rw [get_set_self] at he
        rcases (upsertEntryList_changed_ne hse hu).2 e he with rfl | he2
        · exact hE
        · exact hok _ e he2
      · rw [get_set_ne s hk] at he
        exact hok k e he
    have hne : joinNl (coreList v d s) ++ [nl] =
        normaliseBlock (joinNl (coreList v d (s.set (sectionKeyFor catH) nL)) ++ [nl]) →
        False := by
      intro hcon
      rw [normalise_fix] at hcon
      have hp1 := parse_render v d s [nl] (Or.inr rfl) hv hd hok
      have hp2 := parse_render v d (s.set (sectionKeyFor catH) nL) [nl]
        (Or.inr rfl) hv hd hok2
      rw [← hcon] at hp2
      rw [hp1] at hp2
      have hs2 : s = s.set (sectionKeyFor catH) nL := by
        have h3 := congrArg ParsedBlock.sections hp2
        exact h3
      have h4 := congrArg (fun x => Sections.get x (sectionKeyFor catH)) hs2
      dsimp only at h4
      rw [get_set_self] at h4
      exact (upsertEntryList_changed_ne hse hu).1 h4.symm
    rw [replace_structured pre post v d _ s (versionOk_facts hv).2.1 hdnl hes hpre hpost,
      if_neg hne, normalise_fix]

end SmartChangelog

/-! ## C2: idempotence of the upsert + stamp pipeline -/

namespace SmartChangelog

/-- One application of the changelog context: upsert the entry into the version
block, then stamp the last-updated date (`_upsert_entry_for_version` followed
by `_update_last_updated`). -/
def applyContext (content heading catH entry tid ds : Str) : Str :=
  (updateLastUpdated
    (upsertEntryForVersion content heading catH entry tid).1 heading ds).1

/-- C2 (amended): on a document that is a well-formed rendered block for the
version, embedded between a prefix with no earlier heading occurrence and a
tail that is empty or starts a later version, upserting a well-formed entry
that carries its identifier as `(<id>` and stamping a well-formed date is
idempotent: the second application of both operations reports `changed = false`
and returns the document unchanged. -/
theorem upsert_update_idempotent
    (pre post v d catH entry tid ds : Str) (s : Sections)
    (hv : versionOk v = true) (hd : validDate d = true) (hds : validDate ds = true)
    (hok : ∀ k, ∀ e ∈ s.get k, entryOk e = true)
    (hpf : ∀ k, ∀ e ∈ s.get k, (str "## ").isPrefixOf e = false)
    (hE : entryOk entry = true) (hEpf : (str "## ").isPrefixOf entry = false)
    (hse : strip entry = entry) (hm : containsSub entry ('(' :: tid) = true)
    (hpre : ∀ p, p < pre.length →
      ¬ ((str "## " ++ v) ++ [nl]) <+: ((pre ++ ((str "## " ++ v) ++ [nl])).drop p))
    (hpost : post = [] ∨ (str "\n## ") <+: post) :
    upsertEntryForVersion
        (applyContext (pre ++ renderVersionBlock v d s ++ post) (str "## " ++ v)
          catH entry tid ds) (str "## " ++ v) catH entry tid =
      (applyContext (pre ++ renderVersionBlock v d s ++ post) (str "## " ++ v)
        catH entry tid ds, false) ∧
    updateLastUpdated
        (applyContext (pre ++ renderVersionBlock v d s ++ post) (str "## " ++ v)
          catH entry tid ds) (str "## " ++ v) ds =
      (applyContext (pre ++ renderVersionBlock v d s ++ post) (str "## " ++ v)
        catH entry tid ds, false) := by
  have hCeq : pre ++ renderVersionBlock v d s ++ post =
      pre ++ (joinNl (coreList v d s) ++ [nl]) ++ post := by
    rw [render_join]
  obtain ⟨s1, hok1, hpf1, hu1, hd1⟩ : ∃ s1 : Sections,
      (∀ k, ∀ e ∈ s1.get k, entryOk e = true) ∧
      (∀ k, ∀ e ∈ s1.get k, (str "## ").isPrefixOf e = false) ∧
      upsertEntryList entry ('(' :: tid) (s1.get (sectionKeyFor catH)) = .unchanged ∧
      applyContext (pre ++ renderVersionBlock v d s ++ post) (str "## " ++ v)
          catH entry tid ds =
        pre ++ (joinNl (coreList v ds s1) ++ [nl]) ++ post := by
    have hA := upsert_structured pre post v d catH entry tid s hv hd hok hpf hE hse
      hpre hpost
    cases hu : upsertEntryList entry ('(' :: tid) (s.get (sectionKeyFor catH)) with
    | unchanged =>
      rw [hu] at hA
      dsimp only at hA
      refine ⟨s, hok, hpf, hu, ?_⟩
      unfold applyContext
      rw [hCeq, hA]
      dsimp only
      rw [update_structured pre post v d ds s hv hd hok hpf hds hpre hpost]
      by_cases hdd : d = ds
      · subst hdd
        rw [if_pos rfl]
      · rw [if_neg hdd]
    | changed nL =>
      rw [hu] at hA
      dsimp only at hA
      have hok1 : ∀ k, ∀ e ∈ (s.set (sectionKeyFor catH) nL).get k,
          entryOk e = true := by
        intro k e he
        by_cases hk : k = sectionKeyFor catH
        · subst hk
          rw [get_set_self] at he
          rcases (upsertEntryList_changed_ne hse hu).2 e he with rfl | he2
          · exact hE
          · exact hok _ e he2
        · rw [get_set_ne s hk] at he
          exact hok k e he
      have hpf1 : ∀ k, ∀ e ∈ (s.set (sectionKeyFor catH) nL).get k,
          (str "## ").isPrefixOf e = false := by
        intro k e he
        by_cases hk : k = sectionKeyFor catH
        · subst hk
          rw [get_set_self] at he
          rcases (upsertEntryList_changed_ne hse hu).2 e he with rfl | he2
          · exact hEpf
          · exact hpf _ e he2
        · rw [get_set_ne s hk] at he
          exact hpf k e he
      refine ⟨s.set (sectionKeyFor catH) nL, hok1, hpf1, ?_, ?_⟩
      · rw [get_set_self]
        exact upsertEntryList_changed_next hm hse hu
      · unfold applyContext
        rw [hCeq, hA]
        dsimp only
        rw [update_structured pre post v d ds (s.set (sectionKeyFor catH) nL)
          hv hd hok1 hpf1 hds hpre hpost]
        by_cases hdd : d = ds
        · subst hdd
          rw [if_pos rfl]
        · rw [if_neg hdd]
  constructor
  · rw [hd1]
    have h3 := upsert_structured pre post v ds catH entry tid s1 hv hds hok1 hpf1
      hE hse hpre hpost
    rw [hu1] at h3
    dsimp only at h3
    exact h3
  · rw [hd1]
    have h4 := update_structured pre post v ds ds s1 hv hds hok1 hpf1 hds hpre hpost
    rw [if_pos rfl] at h4
    exact h4

end SmartChangelog

namespace SmartChangelog

/-- C2 counterexample: an entry that does not carry its identifier as `(<id>`
is inserted again by the second application — the second upsert reports
`changed = true` (and duplicates the line), refuting unrestricted idempotence. -/
theorem upsert_update_not_idempotent :
    (upsertEntryForVersion
      (applyContext (renderVersionBlock (str "1.5") (str "2025-01-01") emptySections)
        (str "## 1.5") (sectionHeading .change) (str "- hello") (str "ABC-1")
        (str "2025-01-01"))
      (str "## 1.5") (sectionHeading .change) (str "- hello") (str "ABC-1")).2 =
      true := by
  have e1 : str "## 1.5" = str "## " ++ str "1.5" := by decide
  have e2 : renderVersionBlock (str "1.5") (str "2025-01-01") emptySections =
      [] ++ (joinNl (coreList (str "1.5") (str "2025-01-01") emptySections) ++ [nl]) ++
        [] := by
    rw [render_join]
    simp
  have hokE : ∀ k, ∀ e ∈ emptySections.get k, entryOk e = true := by
    intro k e he
    cases k <;> exact absurd he (List.not_mem_nil e)
  have hpfE : ∀ k, ∀ e ∈ emptySections.get k, (str "## ").isPrefixOf e = false := by
    intro k e he
    cases k <;> exact absurd he (List.not_mem_nil e)
  have hpre0 : ∀ p, p < ([] : Str).length →
      ¬ ((str "## " ++ str "1.5") ++ [nl]) <+:
        ((([] : Str) ++ ((str "## " ++ str "1.5") ++ [nl])).drop p) := by
    intro p hp
    simp at hp
  have hpost0 : ([] : Str) = [] ∨ (str "\n## ") <+: ([] : Str) := Or.inl rfl
  have h1 := upsert_structured [] [] (str "1.5") (str "2025-01-01")
    (sectionHeading .change) (str "- hello") (str "ABC-1") emptySections
    (by decide) (by decide) hokE hpfE (by decide) (by decide) hpre0 hpost0
  have hu1 : upsertEntryList (str "- hello") ('(' :: str "ABC-1")
      (emptySections.get (sectionKeyFor (sectionHeading .change))) =
      .changed [str "- hello"] := by decide
  rw [hu1] at h1
  dsimp only at h1
  have hsk : sectionKeyFor (sectionHeading .change) = SectionKey.change := by decide
  rw [hsk] at h1
  have hok1 : ∀ k, ∀ e ∈ (emptySections.set SectionKey.change [str "- hello"]).get k,
      entryOk e = true := by
    intro k e he
    cases k
    · exact absurd he (List.not_mem_nil e)
    · exact absurd he (List.not_mem_nil e)
    · rcases List.mem_singleton.1 he with rfl
      decide
  have hpf1 : ∀ k, ∀ e ∈ (emptySections.set SectionKey.change [str "- hello"]).get k,
      (str "## ").isPrefixOf e = false := by
    intro k e he
    cases k
    · exact absurd he (List.not_mem_nil e)
    · exact absurd he (List.not_mem_nil e)
    · rcases List.mem_singleton.1 he with rfl
      decide
  have h2 := update_structured [] [] (str "1.5") (str "2025-01-01") (str "2025-01-01")
    (emptySections.set SectionKey.change [str "- hello"]) (by decide) (by decide)
    hok1 hpf1 (by decide) hpre0 hpost0
  rw [if_pos rfl] at h2
  have hd1 : applyContext (renderVersionBlock (str "1.5") (str "2025-01-01")
        emptySections) (str "## 1.5") (sectionHeading .change) (str "- hello")
        (str "ABC-1") (str "2025-01-01") =
      [] ++ (joinNl (coreList (str "1.5") (str "2025-01-01")
        (emptySections.set SectionKey.change [str "- hello"])) ++ [nl]) ++ [] := by
    unfold applyContext
    rw [e1, e2, h1]
    dsimp only
    rw [h2]
  have h3 := upsert_structured [] [] (str "1.5") (str "2025-01-01")
    (sectionHeading .change) (str "- hello") (str "ABC-1")
    (emptySections.set SectionKey.change [str "- hello"])
    (by decide) (by decide) hok1 hpf1 (by decide) (by decide) hpre0 hpost0
  have hu2 : upsertEntryList (str "- hello") ('(' :: str "ABC-1")
      ((emptySections.set SectionKey.change [str "- hello"]).get
        (sectionKeyFor (sectionHeading .change))) =
      .changed [str "- hello", str "- hello"] := by decide
  rw [hu2] at h3
  dsimp only at h3
  rw [hd1, e1, h3]

/-- C2 witness. -/
theorem upsert_update_idempotent_witness :
    upsertEntryForVersion
        (applyContext ([] ++ renderVersionBlock (str "1.5") (str "2025-01-01")
            emptySections ++ []) (str "## " ++ str "1.5")
          (sectionHeading .change) (str "- Fix crash (AB-1)") (str "AB-1")
          (str "2025-02-02")) (str "## " ++ str "1.5")
        (sectionHeading .change) (str "- Fix crash (AB-1)") (str "AB-1") =
      (applyContext ([] ++ renderVersionBlock (str "1.5") (str "2025-01-01")
          emptySections ++ []) (str "## " ++ str "1.5")
        (sectionHeading .change) (str "- Fix crash (AB-1)") (str "AB-1")
        (str "2025-02-02"), false) ∧
    updateLastUpdated
        (applyContext ([] ++ renderVersionBlock (str "1.5") (str "2025-01-01")
            emptySections ++ []) (str "## " ++ str "1.5")
          (sectionHeading .change) (str "- Fix crash (AB-1)") (str "AB-1")
          (str "2025-02-02")) (str "## " ++ str "1.5") (str "2025-02-02") =
      (applyContext ([] ++ renderVersionBlock (str "1.5") (str "2025-01-01")
          emptySections ++ []) (str "## " ++ str "1.5")
        (sectionHeading .change) (str "- Fix crash (AB-1)") (str "AB-1")
        (str "2025-02-02"), false) :=
  upsert_update_idempotent [] [] (str "1.5") (str "2025-01-01")
    (sectionHeading .change) (str "- Fix crash (AB-1)") (str "AB-1")
    (str "2025-02-02") emptySections
    (by decide) (by decide) (by decide)
    (by intro k e he; cases k <;> exact absurd he (List.not_mem_nil e))
    (by intro k e he; cases k <;> exact absurd he (List.not_mem_nil e))
    (by decide) (by decide) (by decide) (by decide)
    (by intro p hp; simp at hp) (Or.inl rfl)

end SmartChangelog
